import Mathlib

/-!
# Verification of the `cmdline-parser` tokenizer

Shallow embedding of the two command-line tokenizer engines of the
repository (`src/unix.rs` and `src/windows.rs`) together with the
`parse_single` facade of `src/lib.rs`, and proofs of the specification
claims about them.

Strings are modelled as `List Char`; byte offsets are computed with
`Char.utf8Size`, mirroring Rust's `str::char_indices` (which yields
(byte-offset, char) pairs) and `str::len` (UTF-8 byte length).

Both Rust engines share the very same loop shape (peek for the start
offset, per-character state transition, separator boundary handling,
end-of-input finalization); the per-character `match self.state, c`
tables differ.  We embed this faithfully as one generic loop `runLoop`
parameterized by the per-engine transition classifier (`unixClassify`,
`winClassify`, each a line-by-line transcription of the corresponding
Rust `match`) and the per-engine end-of-input finalizer.
-/

set_option maxHeartbeats 1000000

/-- Named constants for the three syntactically special characters. -/
def bslash : Char := Char.ofNat 92

/-- Single-quote character `'`. -/
def squote : Char := Char.ofNat 39

/-- Double-quote character `"`. -/
def dquote : Char := Char.ofNat 34

/-- UTF-8 byte length of a string, as in Rust's `str::len`. -/
def utf8Len (s : List Char) : Nat := (s.map Char.utf8Size).sum

/-- `char_indices` of a string starting at byte offset `off`:
the list of (byte-offset, character) pairs, as in Rust's
`str::char_indices`. -/
def charIndicesFrom (off : Nat) : List Char → List (Nat × Char)
  | [] => []
  | c :: cs => (off, c) :: charIndicesFrom (off + c.utf8Size) cs

/-- `char_indices` of a whole string. -/
def charIndices (s : List Char) : List (Nat × Char) := charIndicesFrom 0 s

/-- The contents of the byte slice `s[a..b)`: the characters of `s`
whose byte offset lies in `[a, b)`.  At char-boundary offsets this is
exactly Rust's `&s[a..b]`. -/
def byteSlice (s : List Char) (a b : Nat) : List Char :=
  ((charIndices s).filter (fun ic => decide (a ≤ ic.1) && decide (ic.1 < b))).map
    (fun ic => ic.2)

/-- Result of classifying one character in a given scanner state:
either the character is an argument separator encountered in the
`Normal` state (the boundary branch of the Rust `match`), or the
machine takes a transition to `next`, appending `app` to the resolved
text and, when `quoted` is set, recording that the token was quoted
(Rust's `was_quoted = true`). -/
inductive StepRes (σ : Type) where
  | sep : StepRes σ
  | go (next : σ) (app : List Char) (quoted : Bool) : StepRes σ
deriving DecidableEq

/-- The scanner session (Rust `Parser` struct of either engine):
current state, remaining `char_indices` stream, total input byte
length and the active separator set. -/
structure Parser (σ : Type) where
  state : σ
  cmdline : List (Nat × Char)
  cmdline_len : Nat
  separators : List Char
deriving DecidableEq

/-- `Parser::set_separators`: replace the separator set.  (The Rust
`HashSet` is modelled by a list used only through membership.) -/
def Parser.set_separators (p : Parser σ) (seps : List Char) : Parser σ :=
  { p with separators := seps }

/-- One tokenizer engine: initial state, per-character transition
classifier (given the active separator set), and the characters
appended to a pending token at end of input (Rust code after the
`for` loop; empty for Unix, a pending `\` for Windows). -/
structure Engine (σ : Type) where
  initState : σ
  classify : List Char → σ → Char → StepRes σ
  finalize : σ → List Char

/-- The scanning loop inside `Parser::next` (the `for (i, c) in &mut
self.cmdline` loop, shared shape of both engines): walks the remaining
`char_indices`, threading the state, the accumulated resolved text
`arg`, the candidate start offset and the `was_quoted` flag.  Returns
the optional produced token, the final state, and the remaining
stream. -/
def runLoop (cls : σ → Char → StepRes σ) (finalize : σ → List Char) (len : Nat) :
    σ → List (Nat × Char) → List Char → Nat → Bool →
    Option ((Nat × Nat) × List Char) × σ × List (Nat × Char)
  | st, [], arg, start, wq =>
      let argF := arg ++ finalize st
      (if argF.length > 0 || wq then some ((start, len), argF) else none, st, [])
  | st, (i, c) :: rest, arg, start, wq =>
      match cls st c with
      | .sep =>
          if arg.length > 0 || wq then (some ((start, i), arg), st, rest)
          else runLoop cls finalize len st rest arg (i + 1) wq
      | .go st' app q => runLoop cls finalize len st' rest (arg ++ app) start (wq || q)

/-- `Parser::next` of either engine: `None` when the stream is
exhausted, otherwise run the scanning loop with a fresh `arg`, start
initialized from the peeked first offset and `was_quoted = false`. -/
def Engine.next (E : Engine σ) (p : Parser σ) :
    Option ((Nat × Nat) × List Char) × Parser σ :=
  match p.cmdline with
  | [] => (none, p)
  | (start, _) :: _ =>
      let r := runLoop (E.classify p.separators) E.finalize p.cmdline_len
        p.state p.cmdline [] start false
      (r.1, { p with state := r.2.1, cmdline := r.2.2 })

/-- `Parser::new`: state `Normal`, stream at offset 0, default
separator set `{' '}`. -/
def Engine.new (E : Engine σ) (s : List Char) : Parser σ :=
  { state := E.initState, cmdline := charIndices s,
    cmdline_len := utf8Len s, separators := [' '] }

/-- Repeated calls of `next`, bounded by a fuel counter. -/
def Engine.tokensFuel (E : Engine σ) : Nat → Parser σ → List ((Nat × Nat) × List Char)
  | 0, _ => []
  | fuel + 1, p =>
      match E.next p with
      | (none, _) => []
      | (some t, p') => t :: E.tokensFuel fuel p'

/-- The full token sequence obtained by repeatedly calling `next`
until it returns `None`.  Each successful `next` consumes at least one
character of the stream, so `length + 1` calls always suffice. -/
def Engine.tokens (E : Engine σ) (p : Parser σ) : List ((Nat × Nat) × List Char) :=
  E.tokensFuel (p.cmdline.length + 1) p

/-- A pull schedule: before each `next`, optionally call
`set_separators` with a new separator set.  `pullsTrace` records the
result of every pull (`none` = exhaustion signalled). -/
def Engine.pullsTrace (E : Engine σ) :
    Parser σ → List (Option (List Char)) → List (Option ((Nat × Nat) × List Char))
  | _, [] => []
  | p, sep? :: sch =>
      let p1 := match sep? with
        | none => p
        | some seps => p.set_separators seps
      let r := E.next p1
      r.1 :: E.pullsTrace r.2 sch

/-- The tokens produced along a pull schedule (exhaustion results
dropped). -/
def Engine.runPulls (E : Engine σ) :
    Parser σ → List (Option (List Char)) → List ((Nat × Nat) × List Char)
  | _, [] => []
  | p, sep? :: sch =>
      let p1 := match sep? with
        | none => p
        | some seps => p.set_separators seps
      let r := E.next p1
      match r.1 with
      | none => E.runPulls r.2 sch
      | some t => t :: E.runPulls r.2 sch

namespace Unix

/-- `ParsingState` of `src/unix.rs`. -/
inductive ParsingState where
  | Normal | Escaped | SingleQuoted | DoubleQuoted | DoubleQuotedEscaped
deriving DecidableEq

end Unix

/-- The `match (self.state, c)` table of `src/unix.rs`, arm by arm and
in source order (in particular the backslash/quote arms are tested
before the separator guard). -/
def unixClassify (seps : List Char) :
    Unix.ParsingState → Char → StepRes Unix.ParsingState := fun st c =>
  match st with
  | .Normal =>
      if c = bslash then .go .Escaped [] false
      else if c = squote then .go .SingleQuoted [] false
      else if c = dquote then .go .DoubleQuoted [] false
      else if seps.contains c then .sep
      else .go .Normal [c] false
  | .Escaped => .go .Normal [c] false
  | .SingleQuoted =>
      if c = squote then .go .Normal [] true
      else .go .SingleQuoted [c] false
  | .DoubleQuoted =>
      if c = dquote then .go .Normal [] true
      else if c = bslash then .go .DoubleQuotedEscaped [] false
      else .go .DoubleQuoted [c] false
  | .DoubleQuotedEscaped =>
      if c = dquote ∨ c = bslash then .go .DoubleQuoted [c] false
      else .go .DoubleQuoted [bslash, c] false

/-- The Unix engine: no end-of-input append. -/
def unixEngine : Engine Unix.ParsingState :=
  { initState := .Normal, classify := unixClassify, finalize := fun _ => [] }

namespace Windows

/-- `ParsingState` of `src/windows.rs`. -/
inductive ParsingState where
  | Normal | Quoted | QuotedEscaped
deriving DecidableEq

end Windows

/-- The `match (self.state, c)` table of `src/windows.rs`. -/
def winClassify (seps : List Char) :
    Windows.ParsingState → Char → StepRes Windows.ParsingState := fun st c =>
  match st with
  | .Normal =>
      if c = dquote then .go .Quoted [] false
      else if seps.contains c then .sep
      else .go .Normal [c] false
  | .Quoted =>
      if c = dquote then .go .Normal [] true
      else if c = bslash then .go .QuotedEscaped [] false
      else .go .Quoted [c] false
  | .QuotedEscaped =>
      if c = dquote ∨ c = bslash then .go .Quoted [c] false
      else .go .Quoted [bslash, c] false

/-- `src/windows.rs` after the scan loop: `if self.state ==
QuotedEscaped { arg.push('\\') }`. -/
def winFinalize (st : Windows.ParsingState) : List Char :=
  if st = .QuotedEscaped then [bslash] else []

/-- The Windows engine. -/
def windowsEngine : Engine Windows.ParsingState :=
  { initState := .Normal, classify := winClassify, finalize := winFinalize }

/-- `parse_single` of `src/lib.rs` (platform `Parser` = Unix engine,
matching the claim's cited sources): empty the separator set and
resolve the whole string as at most one argument. -/
def parse_single (s : List Char) : List Char :=
  match (unixEngine.next ((unixEngine.new s).set_separators [])).1 with
  | some (_, arg) => arg
  | none => []

/-- Modelled from the spec (§8, testable property on separator-free
inputs): the whitespace-split substrings of the input together with
their byte ranges.  `start`/`off` track the current token's start and
the running byte offset; `acc` is the token accumulated so far. -/
def wsSplitGo : Nat → Nat → List Char → List Char → List ((Nat × Nat) × List Char)
  | start, off, acc, [] => if acc.isEmpty then [] else [((start, off), acc)]
  | start, off, acc, c :: cs =>
      if c = ' ' then
        if acc.isEmpty then wsSplitGo (off + 1) (off + 1) [] cs
        else ((start, off), acc) :: wsSplitGo (off + 1) (off + 1) [] cs
      else if acc.isEmpty then wsSplitGo off (off + c.utf8Size) [c] cs
      else wsSplitGo start (off + c.utf8Size) (acc ++ [c]) cs

/-- Modelled from the spec: whitespace-split tokens of a string with
their byte ranges. -/
def wsSplit (s : List Char) : List ((Nat × Nat) × List Char) :=
  wsSplitGo 0 0 [] s

/-- Pure scan of a character run: fold the per-character transitions
over the characters, accumulating the resolved text and the
`was_quoted` flag (a separator classification stops the scan; it is
only ever used on runs whose scan meets no separator). -/
def scanArg (cls : σ → Char → StepRes σ) : σ → List Char → Bool → List Char → σ × List Char × Bool
  | st, arg, wq, [] => (st, arg, wq)
  | st, arg, wq, c :: cs =>
      match cls st c with
      | .sep => (st, arg, wq)
      | .go st' app q => scanArg cls st' (arg ++ app) (wq || q) cs

/-- Whether a classification is the separator branch. -/
def stepIsSep : StepRes σ → Bool
  | .sep => true
  | .go _ _ _ => false

/-- The scan of this character run never meets a separator
classification. -/
def NoSepPath (cls : σ → Char → StepRes σ) : σ → List Char → Prop
  | _, [] => True
  | st, c :: cs =>
      match cls st c with
      | .sep => False
      | .go st' _ _ => NoSepPath cls st' cs


/-! ## Basic facts about byte offsets -/

theorem utf8Len_nil : utf8Len [] = 0 := rfl

theorem utf8Len_cons (c : Char) (cs : List Char) :
    utf8Len (c :: cs) = c.utf8Size + utf8Len cs := by
  simp [utf8Len]

theorem utf8Len_append (a b : List Char) :
    utf8Len (a ++ b) = utf8Len a + utf8Len b := by
  simp [utf8Len]

theorem charIndicesFrom_append (off : Nat) (a b : List Char) :
    charIndicesFrom off (a ++ b)
      = charIndicesFrom off a ++ charIndicesFrom (off + utf8Len a) b := by
  induction a generalizing off with
  | nil => simp [charIndicesFrom, utf8Len_nil]
  | cons c cs ih =>
      simp [charIndicesFrom, ih, utf8Len_cons, Nat.add_assoc]

theorem mem_charIndicesFrom_bounds {off : Nat} {cs : List Char} {ic : Nat × Char}
    (h : ic ∈ charIndicesFrom off cs) :
    off ≤ ic.1 ∧ ic.1 + ic.2.utf8Size ≤ off + utf8Len cs := by
  induction cs generalizing off with
  | nil => simp [charIndicesFrom] at h
  | cons c cs ih =>
      simp only [charIndicesFrom, List.mem_cons] at h
      rcases h with h | h
      · subst h
        refine ⟨Nat.le_refl _, ?_⟩
        show off + c.utf8Size ≤ off + utf8Len (c :: cs)
        rw [utf8Len_cons]
        omega
      · have := ih h
        rw [utf8Len_cons]
        omega

/-! ## Step lemmas for the scanning loop -/

theorem runLoop_nil (cls : σ → Char → StepRes σ) (finalize : σ → List Char)
    (len : Nat) (st : σ) (arg : List Char) (start : Nat) (wq : Bool) :
    runLoop cls finalize len st [] arg start wq
      = (if (arg ++ finalize st).length > 0 || wq
          then some ((start, len), arg ++ finalize st) else none, st, []) := rfl

theorem runLoop_cons_sep {cls : σ → Char → StepRes σ} {st : σ} {c : Char}
    (finalize : σ → List Char) (len : Nat) (i : Nat) (rest : List (Nat × Char))
    (arg : List Char) (start : Nat) (wq : Bool) (h : cls st c = .sep) :
    runLoop cls finalize len st ((i, c) :: rest) arg start wq
      = if arg.length > 0 || wq then (some ((start, i), arg), st, rest)
        else runLoop cls finalize len st rest arg (i + 1) wq := by
  simp [runLoop, h]

theorem runLoop_cons_go {cls : σ → Char → StepRes σ} {st st' : σ} {c : Char}
    {app : List Char} {q : Bool}
    (finalize : σ → List Char) (len : Nat) (i : Nat) (rest : List (Nat × Char))
    (arg : List Char) (start : Nat) (wq : Bool) (h : cls st c = .go st' app q) :
    runLoop cls finalize len st ((i, c) :: rest) arg start wq
      = runLoop cls finalize len st' rest (arg ++ app) start (wq || q) := by
  simp [runLoop, h]

/-! ## The remaining stream shrinks; unfolding `tokens` -/

theorem runLoop_rest_length_le (cls : σ → Char → StepRes σ)
    (finalize : σ → List Char) (len : Nat) :
    ∀ (l : List (Nat × Char)) (st : σ) (arg : List Char) (start : Nat) (wq : Bool),
      (runLoop cls finalize len st l arg start wq).2.2.length ≤ l.length := by
  intro l
  induction l with
  | nil => intro st arg start wq; simp [runLoop_nil]
  | cons ic rest ih =>
      intro st arg start wq
      obtain ⟨i, c⟩ := ic
      rcases h : cls st c with _ | ⟨st', app, q⟩
      · rw [runLoop_cons_sep _ _ _ _ _ _ _ h]
        split
        · simp
        · exact Nat.le_succ_of_le (ih ..)
      · rw [runLoop_cons_go _ _ _ _ _ _ _ h]
        exact Nat.le_succ_of_le (ih ..)

theorem runLoop_none_rest (cls : σ → Char → StepRes σ)
    (finalize : σ → List Char) (len : Nat) :
    ∀ (l : List (Nat × Char)) (st : σ) (arg : List Char) (start : Nat) (wq : Bool),
      (runLoop cls finalize len st l arg start wq).1 = none →
      (runLoop cls finalize len st l arg start wq).2.2 = [] := by
  intro l
  induction l with
  | nil => intro st arg start wq _; simp [runLoop_nil]
  | cons ic rest ih =>
      intro st arg start wq h0
      obtain ⟨i, c⟩ := ic
      rcases h : cls st c with _ | ⟨st', app, q⟩
      · rw [runLoop_cons_sep _ _ _ _ _ _ _ h] at h0 ⊢
        split at h0
        · simp at h0
        · rw [if_neg (by assumption)]
          exact ih _ _ _ _ h0
      · rw [runLoop_cons_go _ _ _ _ _ _ _ h] at h0 ⊢
        exact ih _ _ _ _ h0

theorem runLoop_cons_rest_length_le (cls : σ → Char → StepRes σ)
    (finalize : σ → List Char) (len : Nat) (st : σ) (i : Nat) (c : Char)
    (rest : List (Nat × Char)) (arg : List Char) (start : Nat) (wq : Bool) :
    (runLoop cls finalize len st ((i, c) :: rest) arg start wq).2.2.length
      ≤ rest.length := by
  rcases h : cls st c with _ | ⟨st', app, q⟩
  · rw [runLoop_cons_sep _ _ _ _ _ _ _ h]
    split
    · simp
    · exact runLoop_rest_length_le ..
  · rw [runLoop_cons_go _ _ _ _ _ _ _ h]
    exact runLoop_rest_length_le ..

theorem next_some_cmdline_lt {E : Engine σ} {p p' : Parser σ}
    {t : (Nat × Nat) × List Char} (h : E.next p = (some t, p')) :
    p'.cmdline.length < p.cmdline.length := by
  unfold Engine.next at h
  rcases hc : p.cmdline with _ | ⟨⟨i0, c0⟩, rest0⟩
  · rw [hc] at h
    have h1 : (none : Option ((Nat × Nat) × List Char)) = some t :=
      congrArg Prod.fst h
    exact Option.noConfusion h1
  · rw [hc] at h
    have h2 : ({ p with
        state := (runLoop (E.classify p.separators) E.finalize p.cmdline_len
          p.state ((i0, c0) :: rest0) [] i0 false).2.1,
        cmdline := (runLoop (E.classify p.separators) E.finalize p.cmdline_len
          p.state ((i0, c0) :: rest0) [] i0 false).2.2 } : Parser σ) = p' :=
      congrArg Prod.snd h
    have h3 : p'.cmdline
        = (runLoop (E.classify p.separators) E.finalize p.cmdline_len
            p.state ((i0, c0) :: rest0) [] i0 false).2.2 := by
      rw [← h2]
    rw [h3]
    exact Nat.lt_succ_of_le (runLoop_cons_rest_length_le ..)

theorem next_none_cmdline {E : Engine σ} {p : Parser σ}
    (h : (E.next p).1 = none) : (E.next p).2.cmdline = [] := by
  unfold Engine.next at h ⊢
  rcases hc : p.cmdline with _ | ⟨⟨i0, c0⟩, rest0⟩
  · rw [hc] at h ⊢
  · rw [hc] at h
    exact runLoop_none_rest _ _ _ _ _ _ _ _ h

theorem next_preserves_len_seps (E : Engine σ) (p : Parser σ) :
    (E.next p).2.cmdline_len = p.cmdline_len ∧ (E.next p).2.separators = p.separators := by
  unfold Engine.next
  rcases p.cmdline with _ | ⟨⟨i0, c0⟩, rest0⟩ <;> simp

theorem tokensFuel_congr (E : Engine σ) :
    ∀ (f1 f2 : Nat) (p : Parser σ), p.cmdline.length < f1 → p.cmdline.length < f2 →
      E.tokensFuel f1 p = E.tokensFuel f2 p := by
  intro f1
  induction f1 with
  | zero => intro f2 p h1; omega
  | succ n ih =>
      intro f2 p h1 h2
      rcases f2 with _ | m
      · omega
      · show E.tokensFuel (n + 1) p = E.tokensFuel (m + 1) p
        simp only [Engine.tokensFuel]
        rcases hn : E.next p with ⟨r, p'⟩
        rcases r with _ | t
        · rfl
        · have hlt := next_some_cmdline_lt hn
          have := ih m p' (by omega) (by omega)
          simp [this]

theorem tokens_unfold (E : Engine σ) (p : Parser σ) :
    E.tokens p = (match E.next p with
      | (none, _) => []
      | (some t, p') => t :: E.tokens p') := by
  unfold Engine.tokens
  conv_lhs => rw [Engine.tokensFuel]
  rcases hn : E.next p with ⟨r, p'⟩
  rcases r with _ | t
  · rfl
  · have hlt := next_some_cmdline_lt hn
    simp only
    rw [tokensFuel_congr E (p.cmdline.length) (p'.cmdline.length + 1) p' hlt (Nat.lt_succ_self _)]

/-! ## The master range lemma: offsets of produced tokens -/

theorem utf8Size_one_space : (' ' : Char).utf8Size = 1 := by decide

theorem utf8Len_all_one {l : List Char} (h : ∀ c ∈ l, c.utf8Size = 1) :
    utf8Len l = l.length := by
  induction l with
  | nil => rfl
  | cons c cs ih =>
      rw [utf8Len_cons, ih (fun d hd => h d (List.mem_cons_of_mem _ hd)),
        h c (List.mem_cons_self ..), List.length_cons]
      omega

/-- Where the produced token's range and the remaining stream can lie:
scanning a well-indexed stream (`charIndicesFrom off cs` ending exactly
at byte `len`) from a candidate start `start ≤ off` leaves a
well-indexed suffix, and a produced token `(a, b)` satisfies
`start ≤ a ≤ b ≤ off'` where `off'` is where the remaining suffix
begins (and the suffix is empty when no token is produced). -/
theorem runLoop_master (cls : σ → Char → StepRes σ) (finalize : σ → List Char)
    (len : Nat) :
    ∀ (cs : List Char) (off : Nat) (st : σ) (arg : List Char) (start : Nat)
      (wq : Bool), start ≤ off → off + utf8Len cs = len →
      ∃ off' cs',
        (runLoop cls finalize len st (charIndicesFrom off cs) arg start wq).2.2
          = charIndicesFrom off' cs' ∧
        off' + utf8Len cs' = len ∧
        ((runLoop cls finalize len st (charIndicesFrom off cs) arg start wq).1 = none
          → cs' = []) ∧
        (∀ a b t, (runLoop cls finalize len st (charIndicesFrom off cs) arg start wq).1
            = some ((a, b), t) → start ≤ a ∧ a ≤ b ∧ b ≤ off') := by
  intro cs
  induction cs with
  | nil =>
      intro off st arg start wq hso hlen
      rw [utf8Len_nil] at hlen
      refine ⟨len, [], ?_, ?_, ?_, ?_⟩
      · simp [charIndicesFrom, runLoop_nil]
      · simp [utf8Len_nil]
      · intro _; rfl
      · intro a b t ht
        simp only [charIndicesFrom, runLoop_nil] at ht
        split at ht
        · obtain ⟨h1, h2⟩ := Prod.mk.injEq .. ▸ (Option.some.injEq .. ▸ ht)
          obtain ⟨ha, hb⟩ := Prod.mk.injEq .. ▸ h1
          subst ha; subst hb
          exact ⟨Nat.le_refl _, by omega, Nat.le_refl _⟩
        · exact Option.noConfusion ht
  | cons c cs ih =>
      intro off st arg start wq hso hlen
      rw [utf8Len_cons] at hlen
      have hsz := Char.utf8Size_pos c
      rcases h : cls st c with _ | ⟨st', app, q⟩
      · rw [charIndicesFrom, runLoop_cons_sep _ _ _ _ _ _ _ h]
        by_cases hcond : (decide (arg.length > 0) || wq) = true
        · rw [if_pos hcond]
          refine ⟨off + c.utf8Size, cs, rfl, by omega, by intro hn; exact Option.noConfusion hn, ?_⟩
          intro a b t ht
          obtain ⟨h1, h2⟩ := Prod.mk.injEq .. ▸ (Option.some.injEq .. ▸ ht)
          obtain ⟨ha, hb⟩ := Prod.mk.injEq .. ▸ h1
          subst ha; subst hb
          exact ⟨Nat.le_refl _, hso, by omega⟩
        · rw [if_neg hcond]
          obtain ⟨off', cs', hrest, hlen', hnone, hsome⟩ :=
            ih (off + c.utf8Size) st arg (off + 1) wq (by omega) (by omega)
          refine ⟨off', cs', hrest, hlen', hnone, ?_⟩
          intro a b t ht
          obtain ⟨h1, h2, h3⟩ := hsome a b t ht
          exact ⟨by omega, h2, h3⟩
      · rw [charIndicesFrom, runLoop_cons_go _ _ _ _ _ _ _ h]
        exact ih (off + c.utf8Size) st' (arg ++ app) start (wq || q)
          (by omega) (by omega)

/-- The loop's final state after producing a token: either the stream
was exhausted, or the token was cut by a separator and the state is the
one in which that separator was classified. -/
theorem runLoop_some_state (cls : σ → Char → StepRes σ)
    (finalize : σ → List Char) (len : Nat) :
    ∀ (l : List (Nat × Char)) (st : σ) (arg : List Char) (start : Nat) (wq : Bool)
      {t : (Nat × Nat) × List Char},
      (runLoop cls finalize len st l arg start wq).1 = some t →
      (runLoop cls finalize len st l arg start wq).2.2 = [] ∨
      (∃ c2, cls (runLoop cls finalize len st l arg start wq).2.1 c2 = .sep) := by
  intro l
  induction l with
  | nil => intro st arg start wq t _; left; simp [runLoop_nil]
  | cons ic rest ih =>
      intro st arg start wq t hres
      obtain ⟨i, c⟩ := ic
      rcases h : cls st c with _ | ⟨st', app, q⟩
      · rw [runLoop_cons_sep _ _ _ _ _ _ _ h] at hres ⊢
        split at hres
        · rw [if_pos (by assumption)]
          exact Or.inr ⟨c, h⟩
        · rw [if_neg (by assumption)]
          exact ih _ _ _ _ hres
      · rw [runLoop_cons_go _ _ _ _ _ _ _ h] at hres ⊢
        exact ih _ _ _ _ hres

/-! ## Skipping leading separators; scanning plain characters -/

/-- Leading single-byte separator characters are skipped, advancing
the candidate start offset past each of them. -/
theorem runLoop_skip (cls : σ → Char → StepRes σ) (finalize : σ → List Char)
    (len : Nat) (st : σ) :
    ∀ (sp : List Char) (off : Nat) (cs2 : List Char),
      (∀ c ∈ sp, cls st c = .sep ∧ c.utf8Size = 1) →
      runLoop cls finalize len st (charIndicesFrom off (sp ++ cs2)) [] off false
        = runLoop cls finalize len st (charIndicesFrom (off + sp.length) cs2) []
            (off + sp.length) false := by
  intro sp
  induction sp with
  | nil => intro off cs2 _; simp [charIndicesFrom]
  | cons c sp ih =>
      intro off cs2 hsp
      obtain ⟨hc, hc1⟩ := hsp c (List.mem_cons_self ..)
      rw [List.cons_append, charIndicesFrom, runLoop_cons_sep _ _ _ _ _ _ _ hc]
      rw [if_neg (by simp), hc1]
      rw [ih (off + 1) cs2 (fun d hd => hsp d (List.mem_cons_of_mem _ hd))]
      have : off + 1 + sp.length = off + (c :: sp).length := by
        rw [List.length_cons]; omega
      rw [this]

/-- Scanning a run of characters that each append themselves and keep
the state fixed. -/
theorem runLoop_scan (cls : σ → Char → StepRes σ) (finalize : σ → List Char)
    (len : Nat) (st : σ) :
    ∀ (tk : List Char) (off : Nat) (cs2 : List Char) (arg : List Char)
      (start : Nat) (wq : Bool),
      (∀ c ∈ tk, cls st c = .go st [c] false) →
      runLoop cls finalize len st (charIndicesFrom off (tk ++ cs2)) arg start wq
        = runLoop cls finalize len st (charIndicesFrom (off + utf8Len tk) cs2)
            (arg ++ tk) start wq := by
  intro tk
  induction tk with
  | nil => intro off cs2 arg start wq _; simp [charIndicesFrom, utf8Len_nil]
  | cons c tk ih =>
      intro off cs2 arg start wq htk
      have hc := htk c (List.mem_cons_self ..)
      rw [List.cons_append, charIndicesFrom, runLoop_cons_go _ _ _ _ _ _ _ hc]
      rw [ih (off + c.utf8Size) cs2 (arg ++ [c]) start (wq || false)
        (fun d hd => htk d (List.mem_cons_of_mem _ hd))]
      rw [utf8Len_cons, Bool.or_false, List.append_assoc]
      have : off + c.utf8Size + utf8Len tk = off + (c.utf8Size + utf8Len tk) := by omega
      rw [this]
      rfl

/-! ## Unfolding lemmas for the spec-side splitter -/

theorem wsSplitGo_nil (start off : Nat) (acc : List Char) :
    wsSplitGo start off acc []
      = if acc.isEmpty then [] else [((start, off), acc)] := rfl

theorem wsSplitGo_enter (off : Nat) (c : Char) (cs : List Char) (h : ¬(c = ' ')) :
    wsSplitGo off off [] (c :: cs) = wsSplitGo off (off + c.utf8Size) [c] cs := by
  simp [wsSplitGo, h]

theorem wsSplitGo_space (start off : Nat) (acc : List Char) (cs : List Char)
    (hacc : acc ≠ []) :
    wsSplitGo start off acc (' ' :: cs)
      = ((start, off), acc) :: wsSplitGo (off + 1) (off + 1) [] cs := by
  simp [wsSplitGo, hacc]

theorem wsSplitGo_skip :
    ∀ (sp : List Char) (off : Nat) (cs2 : List Char), (∀ c ∈ sp, c = ' ') →
      wsSplitGo off off [] (sp ++ cs2)
        = wsSplitGo (off + sp.length) (off + sp.length) [] cs2 := by
  intro sp
  induction sp with
  | nil => intro off cs2 _; simp
  | cons c sp ih =>
      intro off cs2 hsp
      have hc : c = ' ' := hsp c (List.mem_cons_self ..)
      subst hc
      rw [List.cons_append]
      have h1 : wsSplitGo off off [] (' ' :: (sp ++ cs2))
          = wsSplitGo (off + 1) (off + 1) [] (sp ++ cs2) := by
        simp [wsSplitGo]
      rw [h1, ih (off + 1) cs2 (fun d hd => hsp d (List.mem_cons_of_mem _ hd))]
      have e : off + 1 + sp.length = off + (' ' :: sp).length := by
        rw [List.length_cons]; omega
      rw [e]

theorem wsSplitGo_scan :
    ∀ (tk : List Char) (start off : Nat) (acc cs2 : List Char),
      acc ≠ [] → (∀ c ∈ tk, ¬(c = ' ')) →
      wsSplitGo start off acc (tk ++ cs2)
        = wsSplitGo start (off + utf8Len tk) (acc ++ tk) cs2 := by
  intro tk
  induction tk with
  | nil => intro start off acc cs2 _ _; simp [utf8Len_nil]
  | cons c tk ih =>
      intro start off acc cs2 hacc htk
      have hc := htk c (List.mem_cons_self ..)
      rw [List.cons_append]
      have h1 : wsSplitGo start off acc (c :: (tk ++ cs2))
          = wsSplitGo start (off + c.utf8Size) (acc ++ [c]) (tk ++ cs2) := by
        simp [wsSplitGo, hc, hacc]
      rw [h1, ih start (off + c.utf8Size) (acc ++ [c]) cs2 (by simp)
        (fun d hd => htk d (List.mem_cons_of_mem _ hd))]
      rw [utf8Len_cons, List.append_assoc]
      have e : off + c.utf8Size + utf8Len tk = off + (c.utf8Size + utf8Len tk) := by omega
      rw [e]
      rfl

/-! ## Computation helpers for `next` and `tokens` -/

theorem next_cons_eq (E : Engine σ) (st : σ) (off len : Nat) (seps : List Char)
    (c : Char) (cs : List Char) :
    E.next ⟨st, charIndicesFrom off (c :: cs), len, seps⟩
      = ((runLoop (E.classify seps) E.finalize len st
            (charIndicesFrom off (c :: cs)) [] off false).1,
         ⟨(runLoop (E.classify seps) E.finalize len st
            (charIndicesFrom off (c :: cs)) [] off false).2.1,
          (runLoop (E.classify seps) E.finalize len st
            (charIndicesFrom off (c :: cs)) [] off false).2.2, len, seps⟩) := rfl

theorem tokens_nil_cmdline (E : Engine σ) (st : σ) (len : Nat) (seps : List Char) :
    E.tokens ⟨st, [], len, seps⟩ = [] := rfl

theorem runLoop_yield {cls : σ → Char → StepRes σ} {st : σ} {c : Char}
    (finalize : σ → List Char) (len : Nat) (i : Nat) (rest : List (Nat × Char))
    {arg : List Char} (start : Nat) (wq : Bool) (hsep : cls st c = .sep)
    (harg : arg ≠ []) :
    runLoop cls finalize len st ((i, c) :: rest) arg start wq
      = (some ((start, i), arg), st, rest) := by
  rw [runLoop_cons_sep _ _ _ _ _ _ _ hsep, if_pos]
  simp [List.length_pos, harg]

theorem runLoop_exhaust (cls : σ → Char → StepRes σ) {st : σ}
    {finalize : σ → List Char} (len : Nat) (start : Nat) (wq : Bool)
    {arg : List Char} (hfin : finalize st = []) (harg : arg ≠ []) :
    runLoop cls finalize len st [] arg start wq
      = (some ((start, len), arg), st, []) := by
  rw [runLoop_nil, hfin, List.append_nil, if_pos]
  simp [List.length_pos, harg]

theorem runLoop_exhaust_empty (cls : σ → Char → StepRes σ) {st : σ}
    {finalize : σ → List Char} (len : Nat) (start : Nat)
    (hfin : finalize st = []) :
    runLoop cls finalize len st [] [] start false = (none, st, []) := by
  rw [runLoop_nil, hfin]
  simp

/-- Core correspondence for inputs free of engine-special characters:
when every character of the stream is either the space separator or a
plain character (classified "append yourself, stay in `st0`"),
repeated `next` produces exactly the whitespace-split substrings with
their byte ranges. -/
theorem tokens_plain (E : Engine σ) (st0 : σ) (hfin : E.finalize st0 = [])
    (hspc : E.classify [' '] st0 ' ' = .sep) :
    ∀ (n : Nat) (cs : List Char) (off len : Nat), cs.length ≤ n →
      off + utf8Len cs = len →
      (∀ c ∈ cs, ¬(c = ' ') → E.classify [' '] st0 c = .go st0 [c] false) →
      E.tokens ⟨st0, charIndicesFrom off cs, len, [' ']⟩ = wsSplitGo off off [] cs := by
  intro n
  induction n with
  | zero =>
      intro cs off len hn _ _
      have hnil : cs = [] := List.eq_nil_of_length_eq_zero (Nat.le_zero.mp hn)
      subst hnil
      rfl
  | succ n ih =>
      intro cs off len hn hlen hcls
      have hcs := List.takeWhile_append_dropWhile (fun c => decide (c = ' ')) cs
      have hsp_space : ∀ c ∈ cs.takeWhile (fun c => decide (c = ' ')), c = ' ' := by
        intro c hc
        have := List.mem_takeWhile_imp hc
        simpa using this
      have hrest_mem : ∀ c ∈ cs.dropWhile (fun c => decide (c = ' ')), c ∈ cs :=
        fun c hc => List.Sublist.mem hc (List.dropWhile_sublist _)
      have hrest_head : ∀ (d : Char) (ds : List Char),
          cs.dropWhile (fun c => decide (c = ' ')) = d :: ds → ¬(d = ' ') := by
        intro d ds hd
        have hne : cs.dropWhile (fun c => decide (c = ' ')) ≠ [] := by simp [hd]
        have h1 := List.head_dropWhile_not (fun c => decide (c = ' ')) cs hne
        have h2 : (cs.dropWhile (fun c => decide (c = ' '))).head hne = d := by
          simp [hd]
        rw [h2] at h1
        simpa using h1
      rcases hrest : cs.dropWhile (fun c => decide (c = ' ')) with _ | ⟨c0, cs2⟩
      · -- input is all spaces: no token
        rw [hrest, List.append_nil] at hcs
        have hall : ∀ c ∈ cs, c = ' ' := by
          rw [← hcs]; exact hsp_space
        rcases cs with _ | ⟨c1, cs1⟩
        · rfl
        · have hall' : ∀ c ∈ (c1 :: cs1),
              E.classify [' '] st0 c = .sep ∧ c.utf8Size = 1 := by
            intro c hc
            have hc' := hall c hc
            subst hc'
            exact ⟨hspc, utf8Size_one_space⟩
          have hskip := runLoop_skip (E.classify [' ']) E.finalize len st0
            (c1 :: cs1) off [] hall'
          rw [List.append_nil] at hskip
          have hloop : runLoop (E.classify [' ']) E.finalize len st0
              (charIndicesFrom off (c1 :: cs1)) [] off false = (none, st0, []) := by
            rw [hskip]
            exact runLoop_exhaust_empty (E.classify [' ']) len
              (off + (c1 :: cs1).length) hfin
          have htok : E.tokens ⟨st0, charIndicesFrom off (c1 :: cs1), len, [' ']⟩ = [] := by
            rw [tokens_unfold, next_cons_eq, hloop]
          rw [htok]
          have hws := wsSplitGo_skip (c1 :: cs1) off [] hall
          rw [List.append_nil] at hws
          rw [hws]
          rfl
      · -- there is a first non-space character c0
        have hc0 : ¬(c0 = ' ') := hrest_head c0 cs2 hrest
        rcases cs with _ | ⟨c1, cs1⟩
        · rw [List.dropWhile_nil] at hrest
          exact List.noConfusion hrest
        · rw [hrest] at hcs hrest_mem
          -- the token and what follows it
          have htkdec : c0 :: cs2
              = (c0 :: cs2.takeWhile (fun c => !decide (c = ' ')))
                ++ cs2.dropWhile (fun c => !decide (c = ' ')) := by
            rw [List.cons_append, List.takeWhile_append_dropWhile]
          have htks_ns : ∀ c ∈ cs2.takeWhile (fun c => !decide (c = ' ')), ¬(c = ' ') := by
            intro c hc
            have := List.mem_takeWhile_imp hc
            simpa using this
          have htks_mem : ∀ c ∈ cs2.takeWhile (fun c => !decide (c = ' ')), c ∈ cs2 :=
            fun c hc => List.Sublist.mem hc (List.takeWhile_sublist _)
          have hafter_mem : ∀ c ∈ cs2.dropWhile (fun c => !decide (c = ' ')), c ∈ cs2 :=
            fun c hc => List.Sublist.mem hc (List.dropWhile_sublist _)
          have hafter_head : ∀ (d : Char) (ds : List Char),
              cs2.dropWhile (fun c => !decide (c = ' ')) = d :: ds → d = ' ' := by
            intro d ds hd
            have hne : cs2.dropWhile (fun c => !decide (c = ' ')) ≠ [] := by simp [hd]
            have h1 := List.head_dropWhile_not (fun c => !decide (c = ' ')) cs2 hne
            have h2 : (cs2.dropWhile (fun c => !decide (c = ' '))).head hne = d := by
              simp [hd]
            rw [h2] at h1
            simpa using h1
          obtain ⟨tks, htks⟩ : ∃ t, cs2.takeWhile (fun c => !decide (c = ' ')) = t :=
            ⟨_, rfl⟩
          obtain ⟨after, hafter⟩ : ∃ a, cs2.dropWhile (fun c => !decide (c = ' ')) = a :=
            ⟨_, rfl⟩
          rw [htks] at htkdec htks_ns htks_mem
          rw [hafter] at htkdec hafter_mem hafter_head
          obtain ⟨sp, hsp⟩ : ∃ s, (c1 :: cs1).takeWhile (fun c => decide (c = ' ')) = s :=
            ⟨_, rfl⟩
          rw [hsp] at hcs hsp_space
          -- classification of the characters involved
          have hsp_all : ∀ c ∈ sp, E.classify [' '] st0 c = .sep ∧ c.utf8Size = 1 := by
            intro c hc
            have hc' := hsp_space c hc
            subst hc'
            exact ⟨hspc, utf8Size_one_space⟩
          have hmem_cs : ∀ c ∈ c0 :: tks, c ∈ c1 :: cs1 := by
            intro c hc
            rcases List.mem_cons.mp hc with hc' | hc'
            · subst hc'
              exact hrest_mem c (List.mem_cons_self ..)
            · exact hrest_mem c (List.mem_cons_of_mem _ (htks_mem c hc'))
          have htk_go : ∀ c ∈ c0 :: tks, E.classify [' '] st0 c = .go st0 [c] false := by
            intro c hc
            refine hcls c (hmem_cs c hc) ?_
            rcases List.mem_cons.mp hc with hc' | hc'
            · subst hc'; exact hc0
            · exact htks_ns c hc'
          -- byte-arithmetic facts
          have hsp_len : utf8Len sp = sp.length :=
            utf8Len_all_one (fun c hc => by rw [hsp_space c hc]; exact utf8Size_one_space)
          have hcs_shape : c1 :: cs1 = sp ++ ((c0 :: tks) ++ after) := by
            rw [← hcs, htkdec]
          -- run the loop through the spaces and the token characters
          have hloop1 := runLoop_skip (E.classify [' ']) E.finalize len st0
            sp off ((c0 :: tks) ++ after) hsp_all
          have hloop2 := runLoop_scan (E.classify [' ']) E.finalize len st0
            (c0 :: tks) (off + sp.length) after [] (off + sp.length) false htk_go
          rw [List.nil_append] at hloop2
          rcases after with _ | ⟨a0, rest2⟩
          · -- token runs to the end of the input
            have hlen2 : off + sp.length + utf8Len (c0 :: tks) = len := by
              have h3 : utf8Len (c1 :: cs1)
                  = utf8Len sp + (utf8Len (c0 :: tks) + utf8Len ([] : List Char)) := by
                rw [hcs_shape, utf8Len_append, utf8Len_append]
              rw [utf8Len_nil] at h3
              omega
            have hloop : runLoop (E.classify [' ']) E.finalize len st0
                (charIndicesFrom off (c1 :: cs1)) [] off false
                = (some ((off + sp.length, len), c0 :: tks), st0, []) := by
              rw [hcs_shape, hloop1, hloop2]
              exact runLoop_exhaust (E.classify [' ']) len (off + sp.length) false
                hfin (List.cons_ne_nil c0 tks)
            have htok : E.tokens ⟨st0, charIndicesFrom off (c1 :: cs1), len, [' ']⟩
                = [((off + sp.length, len), c0 :: tks)] := by
              rw [tokens_unfold, next_cons_eq, hloop]
              rfl
            have hscan2 := wsSplitGo_scan tks (off + sp.length)
              (off + sp.length + c0.utf8Size) [c0] [] (by simp) htks_ns
            rw [List.append_nil] at hscan2
            rw [htok, hcs_shape, wsSplitGo_skip sp off _ hsp_space, List.append_nil,
              wsSplitGo_enter _ _ _ hc0, hscan2, wsSplitGo_nil]
            have e2 : off + sp.length + c0.utf8Size + utf8Len tks = len := by
              rw [utf8Len_cons] at hlen2
              omega
            rw [e2]
            rfl
          · -- token is cut by a following space
            have ha0 : a0 = ' ' := hafter_head a0 rest2 rfl
            subst ha0
            have hlen3 : off + sp.length + utf8Len (c0 :: tks) + 1 + utf8Len rest2 = len := by
              have h3 : utf8Len (c1 :: cs1)
                  = utf8Len sp + (utf8Len (c0 :: tks) + utf8Len (' ' :: rest2)) := by
                rw [hcs_shape, utf8Len_append, utf8Len_append]
              rw [utf8Len_cons (' '), utf8Size_one_space] at h3
              omega
            have hstep : charIndicesFrom (off + sp.length + utf8Len (c0 :: tks)) (' ' :: rest2)
                = (off + sp.length + utf8Len (c0 :: tks), ' ')
                  :: charIndicesFrom (off + sp.length + utf8Len (c0 :: tks) + 1) rest2 := by
              rw [charIndicesFrom, utf8Size_one_space]
            have hyield := runLoop_yield E.finalize len
              (off + sp.length + utf8Len (c0 :: tks))
              (charIndicesFrom (off + sp.length + utf8Len (c0 :: tks) + 1) rest2)
              (off + sp.length) false hspc (List.cons_ne_nil c0 tks)
            have hloop : runLoop (E.classify [' ']) E.finalize len st0
                (charIndicesFrom off (c1 :: cs1)) [] off false
                = (some ((off + sp.length, off + sp.length + utf8Len (c0 :: tks)), c0 :: tks),
                   st0,
                   charIndicesFrom (off + sp.length + utf8Len (c0 :: tks) + 1) rest2) := by
              rw [hcs_shape, hloop1, hloop2, hstep, hyield]
            have htok : E.tokens ⟨st0, charIndicesFrom off (c1 :: cs1), len, [' ']⟩
                = ((off + sp.length, off + sp.length + utf8Len (c0 :: tks)), c0 :: tks)
                  :: E.tokens ⟨st0,
                       charIndicesFrom (off + sp.length + utf8Len (c0 :: tks) + 1) rest2,
                       len, [' ']⟩ := by
              rw [tokens_unfold, next_cons_eq, hloop]
            have hlen_rest : rest2.length ≤ n := by
              have h4 : (c1 :: cs1).length
                  = sp.length + ((c0 :: tks).length + (' ' :: rest2).length) := by
                rw [hcs_shape, List.length_append, List.length_append]
              rw [List.length_cons, List.length_cons, List.length_cons] at h4
              rw [List.length_cons] at hn
              omega
            have hih := ih rest2 (off + sp.length + utf8Len (c0 :: tks) + 1) len
              hlen_rest (by omega)
              (fun c hc h' => hcls c
                (hrest_mem c (List.mem_cons_of_mem _
                  (hafter_mem c (List.mem_cons_of_mem _ hc)))) h')
            have hscan2 := wsSplitGo_scan tks (off + sp.length)
              (off + sp.length + c0.utf8Size) [c0] (' ' :: rest2) (by simp) htks_ns
            rw [htok, hih, hcs_shape, wsSplitGo_skip sp off _ hsp_space,
              List.cons_append, wsSplitGo_enter _ _ _ hc0, hscan2]
            have e2 : off + sp.length + c0.utf8Size + utf8Len tks
                = off + sp.length + utf8Len (c0 :: tks) := by
              rw [utf8Len_cons]; omega
            rw [e2, wsSplitGo_space _ _ _ _ (by simp)]
            rfl

/-! ## Byte slices of a decomposed string -/

theorem map_snd_charIndicesFrom :
    ∀ (off : Nat) (cs : List Char),
      (charIndicesFrom off cs).map (fun ic => ic.2) = cs := by
  intro off cs
  induction cs generalizing off with
  | nil => rfl
  | cons c cs ih => rw [charIndicesFrom, List.map_cons, ih]

/-- Slicing a string along a three-way decomposition at character
boundaries recovers the middle part. -/
theorem byteSlice_decomp (u v w : List Char) :
    byteSlice (u ++ (v ++ w)) (utf8Len u) (utf8Len u + utf8Len v) = v := by
  have e1 : charIndices (u ++ (v ++ w))
      = charIndicesFrom 0 u ++ (charIndicesFrom (utf8Len u) v
          ++ charIndicesFrom (utf8Len u + utf8Len v) w) := by
    unfold charIndices
    rw [charIndicesFrom_append, charIndicesFrom_append, Nat.zero_add]
  unfold byteSlice
  rw [e1, List.filter_append, List.filter_append, List.map_append, List.map_append]
  have hu : (charIndicesFrom 0 u).filter
      (fun ic => decide (utf8Len u ≤ ic.1) && decide (ic.1 < utf8Len u + utf8Len v)) = [] := by
    rw [List.filter_eq_nil_iff]
    intro ic hic
    have hb := mem_charIndicesFrom_bounds hic
    have hpos := Char.utf8Size_pos ic.2
    simp only [Bool.and_eq_true, decide_eq_true_eq, not_and]
    intro h1
    omega
  have hv : (charIndicesFrom (utf8Len u) v).filter
      (fun ic => decide (utf8Len u ≤ ic.1) && decide (ic.1 < utf8Len u + utf8Len v))
      = charIndicesFrom (utf8Len u) v := by
    rw [List.filter_eq_self]
    intro ic hic
    have hb := mem_charIndicesFrom_bounds hic
    have hpos := Char.utf8Size_pos ic.2
    simp only [Bool.and_eq_true, decide_eq_true_eq]
    omega
  have hw : (charIndicesFrom (utf8Len u + utf8Len v) w).filter
      (fun ic => decide (utf8Len u ≤ ic.1) && decide (ic.1 < utf8Len u + utf8Len v)) = [] := by
    rw [List.filter_eq_nil_iff]
    intro ic hic
    have hb := mem_charIndicesFrom_bounds hic
    simp only [Bool.and_eq_true, decide_eq_true_eq, not_and]
    intro h1
    omega
  rw [hu, hv, hw, map_snd_charIndicesFrom]
  simp

/-! ## Properties of the spec-side splitter -/

/-- Any string is either all spaces or splits as
spaces ++ (first token) ++ (rest beginning with a space or empty). -/
theorem space_decomp (cs : List Char) :
    (∀ c ∈ cs, c = ' ') ∨
    ∃ sp c0 tks after, cs = sp ++ ((c0 :: tks) ++ after) ∧
      (∀ c ∈ sp, c = ' ') ∧ ¬(c0 = ' ') ∧ (∀ c ∈ tks, ¬(c = ' ')) ∧
      (after = [] ∨ ∃ rest2, after = ' ' :: rest2) := by
  have hcs := List.takeWhile_append_dropWhile (fun c => decide (c = ' ')) cs
  have hsp_space : ∀ c ∈ cs.takeWhile (fun c => decide (c = ' ')), c = ' ' := by
    intro c hc
    have := List.mem_takeWhile_imp hc
    simpa using this
  rcases hrest : cs.dropWhile (fun c => decide (c = ' ')) with _ | ⟨c0, cs2⟩
  · left
    rw [hrest, List.append_nil] at hcs
    rw [← hcs]
    exact hsp_space
  · right
    have hc0 : ¬(c0 = ' ') := by
      have hne : cs.dropWhile (fun c => decide (c = ' ')) ≠ [] := by simp [hrest]
      have h1 := List.head_dropWhile_not (fun c => decide (c = ' ')) cs hne
      have h2 : (cs.dropWhile (fun c => decide (c = ' '))).head hne = c0 := by
        simp [hrest]
      rw [h2] at h1
      simpa using h1
    have hcs2 := List.takeWhile_append_dropWhile (fun c => !decide (c = ' ')) cs2
    have htks_ns : ∀ c ∈ cs2.takeWhile (fun c => !decide (c = ' ')), ¬(c = ' ') := by
      intro c hc
      have := List.mem_takeWhile_imp hc
      simpa using this
    refine ⟨cs.takeWhile (fun c => decide (c = ' ')), c0,
      cs2.takeWhile (fun c => !decide (c = ' ')),
      cs2.dropWhile (fun c => !decide (c = ' ')), ?_, hsp_space, hc0, htks_ns, ?_⟩
    · rw [List.cons_append, hcs2, ← hrest, hcs]
    · rcases hafter : cs2.dropWhile (fun c => !decide (c = ' ')) with _ | ⟨a0, rest2⟩
      · exact Or.inl rfl
      · refine Or.inr ⟨rest2, ?_⟩
        have hne : cs2.dropWhile (fun c => !decide (c = ' ')) ≠ [] := by simp [hafter]
        have h1 := List.head_dropWhile_not (fun c => !decide (c = ' ')) cs2 hne
        have h2 : (cs2.dropWhile (fun c => !decide (c = ' '))).head hne = a0 := by
          simp [hafter]
        rw [h2] at h1
        have ha0 : a0 = ' ' := by simpa using h1
        rw [ha0]

/-- Each whitespace-split token is non-empty, its text is the byte
slice of the original string at its range, and the texts concatenate
to the non-space content, in order. -/
theorem wsSplit_props (s : List Char) :
    ∀ (n : Nat) (cs s1 : List Char), cs.length ≤ n → s = s1 ++ cs →
      List.Forall (fun t => t.2 ≠ [] ∧ t.2 = byteSlice s t.1.1 t.1.2)
        (wsSplitGo (utf8Len s1) (utf8Len s1) [] cs) ∧
      ((wsSplitGo (utf8Len s1) (utf8Len s1) [] cs).map (fun t => t.2)).flatten
        = cs.filter (fun c => !decide (c = ' ')) := by
  intro n
  induction n with
  | zero =>
      intro cs s1 hn _
      have hnil : cs = [] := List.eq_nil_of_length_eq_zero (Nat.le_zero.mp hn)
      subst hnil
      exact ⟨trivial, rfl⟩
  | succ n ih =>
      intro cs s1 hn hs
      rcases space_decomp cs with hall | ⟨sp, c0, tks, after, hshape, hsp, hc0, htks, hafter⟩
      · have h1 : wsSplitGo (utf8Len s1) (utf8Len s1) [] cs = [] := by
          have h2 := wsSplitGo_skip cs (utf8Len s1) [] hall
          rw [List.append_nil] at h2
          rw [h2]
          rfl
        rw [h1]
        refine ⟨trivial, ?_⟩
        simp only [List.map_nil, List.flatten_nil]
        symm
        rw [List.filter_eq_nil_iff]
        intro a ha
        simp [hall a ha]
      · subst hshape
        have hsp1 : utf8Len sp = sp.length :=
          utf8Len_all_one (fun c hc => by rw [hsp c hc]; exact utf8Size_one_space)
        have hm : utf8Len (s1 ++ sp) = utf8Len s1 + sp.length := by
          rw [utf8Len_append, hsp1]
        have hskip := wsSplitGo_skip sp (utf8Len s1) ((c0 :: tks) ++ after) hsp
        have hfiltsp : sp.filter (fun c => !decide (c = ' ')) = [] := by
          rw [List.filter_eq_nil_iff]
          intro a ha
          simp [hsp a ha]
        have hfilttk : (c0 :: tks).filter (fun c => !decide (c = ' ')) = c0 :: tks := by
          rw [List.filter_eq_self]
          intro a ha
          rcases List.mem_cons.mp ha with h' | h'
          · subst h'; simp [hc0]
          · simp [htks a h']
        rcases hafter with hnil | ⟨rest2, hcons⟩
        · subst hnil
          have hscan := wsSplitGo_scan tks (utf8Len s1 + sp.length)
            (utf8Len s1 + sp.length + c0.utf8Size) [c0] [] (by simp) htks
          rw [List.append_nil] at hscan
          have e : utf8Len s1 + sp.length + c0.utf8Size + utf8Len tks
              = utf8Len s1 + sp.length + utf8Len (c0 :: tks) := by
            rw [utf8Len_cons]; omega
          have hsplit : wsSplitGo (utf8Len s1) (utf8Len s1) [] (sp ++ ((c0 :: tks) ++ []))
              = [((utf8Len s1 + sp.length, utf8Len s1 + sp.length + utf8Len (c0 :: tks)),
                  c0 :: tks)] := by
            rw [hskip, List.append_nil, wsSplitGo_enter _ _ _ hc0, hscan, wsSplitGo_nil, e]
            rfl
          rw [hsplit]
          have hs' : s = (s1 ++ sp) ++ ((c0 :: tks) ++ []) := by
            rw [hs, List.append_assoc]
          have hslice := byteSlice_decomp (s1 ++ sp) (c0 :: tks) []
          rw [hm] at hslice
          constructor
          · simp only [List.Forall]
            exact ⟨List.cons_ne_nil c0 tks, by rw [hs']; exact hslice.symm⟩
          · simp only [List.map_cons, List.map_nil, List.flatten_cons, List.flatten_nil,
              List.append_nil, List.filter_append, hfiltsp, hfilttk]
            simp
        · subst hcons
          have hscan := wsSplitGo_scan tks (utf8Len s1 + sp.length)
            (utf8Len s1 + sp.length + c0.utf8Size) [c0] (' ' :: rest2) (by simp) htks
          have e : utf8Len s1 + sp.length + c0.utf8Size + utf8Len tks
              = utf8Len s1 + sp.length + utf8Len (c0 :: tks) := by
            rw [utf8Len_cons]; omega
          have hsplit : wsSplitGo (utf8Len s1) (utf8Len s1) []
                (sp ++ ((c0 :: tks) ++ (' ' :: rest2)))
              = ((utf8Len s1 + sp.length, utf8Len s1 + sp.length + utf8Len (c0 :: tks)),
                  c0 :: tks)
                :: wsSplitGo (utf8Len s1 + sp.length + utf8Len (c0 :: tks) + 1)
                     (utf8Len s1 + sp.length + utf8Len (c0 :: tks) + 1) [] rest2 := by
            rw [hskip, List.cons_append, wsSplitGo_enter _ _ _ hc0, hscan, e,
              wsSplitGo_space _ _ _ _ (by simp)]
            rfl
          have hs2 : s = (s1 ++ (sp ++ ((c0 :: tks) ++ [' ']))) ++ rest2 := by
            rw [hs]
            simp only [List.append_assoc, List.cons_append, List.nil_append]
          have hlen2 : utf8Len (s1 ++ (sp ++ ((c0 :: tks) ++ [' '])))
              = utf8Len s1 + sp.length + utf8Len (c0 :: tks) + 1 := by
            rw [utf8Len_append, utf8Len_append, utf8Len_append, hsp1,
              utf8Len_cons (' '), utf8Size_one_space, utf8Len_nil]
            omega
          have hlen_rest : rest2.length ≤ n := by
            rw [List.length_append, List.length_append, List.length_cons,
              List.length_cons] at hn
            omega
          obtain ⟨hforall2, hflat2⟩ := ih rest2 (s1 ++ (sp ++ ((c0 :: tks) ++ [' ']))) hlen_rest hs2
          rw [hlen2] at hforall2 hflat2
          rw [hsplit]
          have hs3 : s = (s1 ++ sp) ++ ((c0 :: tks) ++ (' ' :: rest2)) := by
            rw [hs, List.append_assoc]
          have hslice := byteSlice_decomp (s1 ++ sp) (c0 :: tks) (' ' :: rest2)
          rw [hm] at hslice
          constructor
          · rw [List.forall_cons]
            exact ⟨⟨List.cons_ne_nil c0 tks, by rw [hs3]; exact hslice.symm⟩, hforall2⟩
          · simp only [List.map_cons, List.flatten_cons, hflat2, List.filter_append,
              hfiltsp, hfilttk, List.nil_append]
            rw [List.filter_cons]
            simp

/-! ## Classifier facts for plain characters -/

theorem unixClassify_plain (c : Char) (h1 : ¬(c = bslash)) (h2 : ¬(c = squote))
    (h3 : ¬(c = dquote)) (h4 : ¬(c = ' ')) :
    unixClassify [' '] .Normal c = .go .Normal [c] false := by
  simp only [unixClassify, if_neg h1, if_neg h2, if_neg h3]
  have h5 : ([' '].contains c) = false := by simp [h4]
  rw [h5]
  simp

theorem winClassify_plain (c : Char) (h3 : ¬(c = dquote)) (h4 : ¬(c = ' ')) :
    winClassify [' '] .Normal c = .go .Normal [c] false := by
  simp only [winClassify, if_neg h3]
  have h5 : ([' '].contains c) = false := by simp [h4]
  rw [h5]
  simp

/-- Claim C1: for every input string containing no quote or backslash
characters, with the default separator set `{' '}`, the sequence of
tokens produced by repeatedly calling `next` equals the
whitespace-split substrings of the input with their byte ranges, each
token's resolved text equals the byte slice `input[start..end)`, and
concatenating `input[start..end)` over all produced tokens
reconstructs exactly the non-separator content of the input, in order.
Proved for the Unix and for the Windows engine. -/
theorem claimC1 (s : List Char)
    (h : s.Forall (fun c => ¬(c = bslash) ∧ ¬(c = squote) ∧ ¬(c = dquote))) :
    (unixEngine.tokens (unixEngine.new s) = wsSplit s
      ∧ windowsEngine.tokens (windowsEngine.new s) = wsSplit s)
    ∧ List.Forall (fun t => t.2 = byteSlice s t.1.1 t.1.2) (wsSplit s)
    ∧ ((wsSplit s).map (fun t => byteSlice s t.1.1 t.1.2)).flatten
        = s.filter (fun c => !decide (c = ' ')) := by
  have hmem := List.forall_iff_forall_mem.mp h
  obtain ⟨hforall, hflat⟩ := wsSplit_props s s.length s [] (Nat.le_refl _) rfl
  have hforall' : List.Forall (fun t => t.2 ≠ [] ∧ t.2 = byteSlice s t.1.1 t.1.2)
      (wsSplit s) := hforall
  have hmem_slice := List.forall_iff_forall_mem.mp hforall'
  refine ⟨⟨?_, ?_⟩, ?_, ?_⟩
  · exact tokens_plain unixEngine .Normal rfl (by decide) s.length s 0 (utf8Len s)
      (Nat.le_refl _) (Nat.zero_add _)
      (fun c hc hns => by
        obtain ⟨h1, h2, h3⟩ := hmem c hc
        exact unixClassify_plain c h1 h2 h3 hns)
  · exact tokens_plain windowsEngine .Normal rfl (by decide) s.length s 0 (utf8Len s)
      (Nat.le_refl _) (Nat.zero_add _)
      (fun c hc hns => by
        obtain ⟨_, _, h3⟩ := hmem c hc
        exact winClassify_plain c h3 hns)
  · exact List.forall_iff_forall_mem.mpr (fun t ht => (hmem_slice t ht).2)
  · have hmapeq : (wsSplit s).map (fun t => byteSlice s t.1.1 t.1.2)
        = (wsSplit s).map (fun t => t.2) :=
      List.map_congr_left (fun t ht => ((hmem_slice t ht).2).symm)
    rw [hmapeq]
    exact hflat

/-- Witness for C1 at the concrete input `"ab  c"`. -/
theorem claimC1_witness :
    List.Forall (fun c => ¬(c = bslash) ∧ ¬(c = squote) ∧ ¬(c = dquote))
      ("ab  c".toList)
    ∧ ((unixEngine.tokens (unixEngine.new ("ab  c".toList)) = wsSplit ("ab  c".toList)
        ∧ windowsEngine.tokens (windowsEngine.new ("ab  c".toList))
            = wsSplit ("ab  c".toList))
      ∧ List.Forall (fun t => t.2 = byteSlice ("ab  c".toList) t.1.1 t.1.2)
          (wsSplit ("ab  c".toList))
      ∧ ((wsSplit ("ab  c".toList)).map
            (fun t => byteSlice ("ab  c".toList) t.1.1 t.1.2)).flatten
          = ("ab  c".toList).filter (fun c => !decide (c = ' '))) :=
  ⟨List.forall_iff_forall_mem.mpr (by decide),
   claimC1 ("ab  c".toList) (List.forall_iff_forall_mem.mpr (by decide))⟩

/-- Counterexample to claim C2 as stated: the claim asserts that for
every input ending the scan in `SingleQuoted` (or `DoubleQuoted`) a
token is returned, finalized as if the quote had been closed.  The
code refutes this: on the one-character input `'` the scan ends in
`SingleQuoted` with empty accumulated text and the quoted flag still
false (the flag is set only when a quote closes), so `next` returns
`None` and no token at all is produced — whereas the closed pair `''`
(what "as if the quote had been closed" prescribes) yields an
empty-string token.  The same happens for a lone `"`. -/
theorem claimC2_counterexample :
    unixEngine.next (unixEngine.new [squote])
      = (none, ⟨.SingleQuoted, [], 1, [' ']⟩)
    ∧ unixEngine.tokens (unixEngine.new [squote]) = []
    ∧ unixEngine.next (unixEngine.new [dquote])
      = (none, ⟨.DoubleQuoted, [], 1, [' ']⟩)
    ∧ unixEngine.tokens (unixEngine.new [dquote]) = []
    ∧ unixEngine.tokens (unixEngine.new [squote, squote]) = [((0, 2), [])] := by
  refine ⟨by decide, by decide, by decide, by decide, by decide⟩

/-- Claim C2 (amended): Unix engine end-of-input tolerance.  Whatever
state the scan ends in — `Escaped` (the pending backslash contributes
no character), `SingleQuoted`, `DoubleQuoted` or `DoubleQuotedEscaped`
(the implicit closure adds no character) — the accumulated text is
returned unchanged as a token, never an error, PROVIDED the
accumulated text is non-empty or a quote pair was closed for this
token; with empty text and no closed quote (e.g. a lone opening quote)
the call returns no token.  In particular `a\` yields exactly the
token `(0..2, "a")` and then exhaustion, and so do the unterminated
quotations `"a` and `'a`. -/
theorem claimC2_amended :
    (∀ (seps : List Char) (len : Nat) (st : Unix.ParsingState) (arg : List Char)
        (start : Nat) (wq : Bool), arg ≠ [] ∨ wq = true →
      runLoop (unixClassify seps) unixEngine.finalize len st [] arg start wq
        = (some ((start, len), arg), st, []))
    ∧ (∀ (seps : List Char) (len : Nat) (st : Unix.ParsingState) (start : Nat),
        runLoop (unixClassify seps) unixEngine.finalize len st [] [] start false
          = (none, st, []))
    ∧ unixEngine.tokens (unixEngine.new ['a', bslash]) = [((0, 2), ['a'])]
    ∧ unixEngine.tokens (unixEngine.new [squote, 'a']) = [((0, 2), ['a'])]
    ∧ unixEngine.tokens (unixEngine.new [dquote, 'a']) = [((0, 2), ['a'])] := by
  refine ⟨?_, ?_, by decide, by decide, by decide⟩
  · intro seps len st arg start wq h
    rw [runLoop_nil]
    have harg : (arg ++ unixEngine.finalize st) = arg := List.append_nil arg
    rw [harg, if_pos]
    rcases h with h | h
    · simp [List.length_pos, h]
    · simp [h]
  · intro seps len st start
    rw [runLoop_nil]
    have harg : (([] : List Char) ++ unixEngine.finalize st) = [] :=
      List.append_nil []
    rw [harg, if_neg]
    simp

/-- Witness for C2 (amended): the general end-of-input equation applied
in the `Escaped` state with pending text `"a"`. -/
theorem claimC2_amended_witness :
    ((['a'] : List Char) ≠ [] ∨ false = true)
    ∧ runLoop (unixClassify [' ']) unixEngine.finalize 5 .Escaped [] ['a'] 0 false
        = (some ((0, 5), ['a']), .Escaped, []) :=
  ⟨Or.inl (by decide), claimC2_amended.1 [' '] 5 .Escaped ['a'] 0 false
    (Or.inl (by decide))⟩

/-- Claim C3: Windows engine end-of-input handling.  If the scan ends
in state `QuotedEscaped`, a literal backslash is appended to the
token's resolved text before finalizing (the pending backslash is NOT
dropped) and a token is always returned; a scan ending in `Quoted` is
closed implicitly without error, the text unchanged.  In particular
`"a\` yields exactly the token `(0..3, "a\")` and then exhaustion. -/
theorem claimC3 :
    (∀ (seps : List Char) (len : Nat) (arg : List Char) (start : Nat) (wq : Bool),
      runLoop (winClassify seps) windowsEngine.finalize len .QuotedEscaped [] arg start wq
        = (some ((start, len), arg ++ [bslash]), .QuotedEscaped, []))
    ∧ (∀ (seps : List Char) (len : Nat) (arg : List Char) (start : Nat) (wq : Bool),
        arg ≠ [] ∨ wq = true →
      runLoop (winClassify seps) windowsEngine.finalize len .Quoted [] arg start wq
        = (some ((start, len), arg), .Quoted, []))
    ∧ windowsEngine.tokens (windowsEngine.new [dquote, 'a', bslash])
        = [((0, 3), ['a', bslash])]
    ∧ windowsEngine.tokens (windowsEngine.new [dquote, 'a']) = [((0, 2), ['a'])] := by
  refine ⟨?_, ?_, by decide, by decide⟩
  · intro seps len arg start wq
    rw [runLoop_nil]
    have hfin : windowsEngine.finalize Windows.ParsingState.QuotedEscaped = [bslash] := rfl
    rw [hfin, if_pos]
    simp
  · intro seps len arg start wq h
    rw [runLoop_nil]
    have hfin : windowsEngine.finalize Windows.ParsingState.Quoted = [] := rfl
    rw [hfin, List.append_nil, if_pos]
    rcases h with h | h
    · simp [List.length_pos, h]
    · simp [h]

/-- Witness for C3: the `Quoted` end-of-input equation applied with
pending text `"a"`. -/
theorem claimC3_witness :
    ((['a'] : List Char) ≠ [] ∨ false = true)
    ∧ runLoop (winClassify [' ']) windowsEngine.finalize 4 .Quoted [] ['a'] 0 false
        = (some ((0, 4), ['a']), .Quoted, []) :=
  ⟨Or.inl (by decide), claimC3.2.1 [' '] 4 ['a'] 0 false (Or.inl (by decide))⟩

/-- Claim C7: a `set_separators` call between two pulls takes effect
from the next pull onward and does not affect tokens already produced:
on `"arg1 arg 2:arg3"` pulling once with the default separators, then
switching the separator set to `{':'}`, yields exactly
`(0..4, "arg1")`, `(5..10, "arg 2")`, `(11..15, "arg3")`, then
exhaustion. -/
theorem claimC7 :
    unixEngine.pullsTrace (unixEngine.new ("arg1 arg 2:arg3".toList))
        [none, some [':'], none, none]
      = [some ((0, 4), ("arg1".toList)), some ((5, 10), ("arg 2".toList)),
         some ((11, 15), ("arg3".toList)), none] := by decide

/-- Claim C8: Unix engine, inside double quotes after a backslash
(`DoubleQuotedEscaped`): a following `"` or `\` is appended as itself
(the escaped quote becomes a literal `"` in the token), while any
other character is appended as a literal `\` followed by that
character — at every position and for every character.  Concretely,
`"arg\"6"`-style input `"a\"6"` resolves to `a"6`, and `"\4"`
resolves to `\4`. -/
theorem claimC8 :
    (∀ (seps : List Char) (len i : Nat) (c : Char) (rest : List (Nat × Char))
        (arg : List Char) (start : Nat) (wq : Bool),
      runLoop (unixClassify seps) unixEngine.finalize len .DoubleQuotedEscaped
          ((i, c) :: rest) arg start wq
        = runLoop (unixClassify seps) unixEngine.finalize len .DoubleQuoted rest
            (arg ++ (if c = dquote ∨ c = bslash then [c] else [bslash, c])) start wq)
    ∧ unixEngine.tokens (unixEngine.new [dquote, 'a', bslash, dquote, '6', dquote])
        = [((0, 6), ['a', dquote, '6'])]
    ∧ unixEngine.tokens (unixEngine.new [dquote, bslash, '4', dquote])
        = [((0, 4), [bslash, '4'])] := by
  refine ⟨?_, by decide, by decide⟩
  intro seps len i c rest arg start wq
  by_cases hc : c = dquote ∨ c = bslash
  · rw [if_pos hc, runLoop_cons_go _ _ _ _ _ _ _
      (show unixClassify seps .DoubleQuotedEscaped c = .go .DoubleQuoted [c] false by
        simp [unixClassify, hc]), Bool.or_false]
  · rw [if_neg hc, runLoop_cons_go _ _ _ _ _ _ _
      (show unixClassify seps .DoubleQuotedEscaped c = .go .DoubleQuoted [bslash, c] false by
        simp [unixClassify, hc]), Bool.or_false]

/-! ## Exhaustion is permanent -/

theorem next_nil_cmdline (E : Engine σ) (p : Parser σ) (h : p.cmdline = []) :
    E.next p = (none, p) := by
  unfold Engine.next
  rw [h]

theorem pullsTrace_none (E : Engine σ) :
    ∀ (sch : List (Option (List Char))) (p : Parser σ), p.cmdline = [] →
      E.pullsTrace p sch = sch.map (fun _ => none) := by
  intro sch
  induction sch with
  | nil => intro p _; rfl
  | cons sep? sch ih =>
      intro p h
      rcases sep? with _ | seps
      · simp only [Engine.pullsTrace, next_nil_cmdline E p h, ih p h, List.map_cons]
      · have h2 : (p.set_separators seps).cmdline = [] := h
        simp only [Engine.pullsTrace, next_nil_cmdline E _ h2, ih _ h2, List.map_cons]

/-- Claim C10: once a call to `next` returns `None`, every subsequent
call also returns `None`, whatever `set_separators` calls are
interleaved — for both engines. -/
theorem claimC10 :
    (∀ (p : Parser Unix.ParsingState) (sch : List (Option (List Char))),
      (unixEngine.next p).1 = none →
      unixEngine.pullsTrace (unixEngine.next p).2 sch = sch.map (fun _ => none))
    ∧ (∀ (p : Parser Windows.ParsingState) (sch : List (Option (List Char))),
      (windowsEngine.next p).1 = none →
      windowsEngine.pullsTrace (windowsEngine.next p).2 sch = sch.map (fun _ => none)) := by
  constructor
  · intro p sch h
    exact pullsTrace_none _ sch _ (next_none_cmdline h)
  · intro p sch h
    exact pullsTrace_none _ sch _ (next_none_cmdline h)

/-- Witness for C10: after exhausting the empty command line, two more
pulls (one with a separator change) both signal exhaustion. -/
theorem claimC10_witness :
    ((unixEngine.next (unixEngine.new ([] : List Char))).1 = none)
    ∧ unixEngine.pullsTrace (unixEngine.next (unixEngine.new ([] : List Char))).2
        [some [':'], none]
      = ([some [':'], none] : List (Option (List Char))).map (fun _ => none) :=
  ⟨by decide, claimC10.1 (unixEngine.new ([] : List Char)) [some [':'], none] (by decide)⟩

/-! ## Range invariants under arbitrary pull schedules -/

theorem next_eq_of_cmdline (E : Engine σ) (p : Parser σ) (off : Nat) (c : Char)
    (cs : List Char) (h : p.cmdline = charIndicesFrom off (c :: cs)) :
    E.next p
      = ((runLoop (E.classify p.separators) E.finalize p.cmdline_len p.state
            (charIndicesFrom off (c :: cs)) [] off false).1,
         { p with
            state := (runLoop (E.classify p.separators) E.finalize p.cmdline_len p.state
              (charIndicesFrom off (c :: cs)) [] off false).2.1,
            cmdline := (runLoop (E.classify p.separators) E.finalize p.cmdline_len p.state
              (charIndicesFrom off (c :: cs)) [] off false).2.2 }) := by
  unfold Engine.next
  rw [h]
  rfl


/-- Along any pull schedule starting from a well-indexed parser whose
stream begins at byte `off ≥ e`, all produced ranges satisfy
`e ≤ start ≤ end ≤ cmdline_len` and consecutive ranges do not
overlap. -/
theorem runPulls_ranges (E : Engine σ) :
    ∀ (sch : List (Option (List Char))) (p : Parser σ) (e off : Nat) (cs : List Char),
      p.cmdline = charIndicesFrom off cs → off + utf8Len cs = p.cmdline_len →
      e ≤ off →
      List.Forall (fun t => e ≤ t.1.1 ∧ t.1.1 ≤ t.1.2 ∧ t.1.2 ≤ p.cmdline_len)
        (E.runPulls p sch)
      ∧ List.Chain' (fun t u => t.1.2 ≤ u.1.1) (E.runPulls p sch) := by
  intro sch
  induction sch with
  | nil => intro p e off cs _ _ _; exact ⟨trivial, trivial⟩
  | cons sep? sch ih =>
      intro p e off cs hcm hlen he
      have hmain : ∀ (p1 : Parser σ), p1.cmdline = charIndicesFrom off cs →
          off + utf8Len cs = p1.cmdline_len →
          List.Forall (fun t => e ≤ t.1.1 ∧ t.1.1 ≤ t.1.2 ∧ t.1.2 ≤ p1.cmdline_len)
            ((match (E.next p1).1 with
              | none => E.runPulls (E.next p1).2 sch
              | some t => t :: E.runPulls (E.next p1).2 sch))
          ∧ List.Chain' (fun t u => t.1.2 ≤ u.1.1)
            ((match (E.next p1).1 with
              | none => E.runPulls (E.next p1).2 sch
              | some t => t :: E.runPulls (E.next p1).2 sch)) := by
        intro p1 hcm1 hlen1
        rcases cs with _ | ⟨c, cs'⟩
        · have hnil : p1.cmdline = [] := hcm1
          rw [next_nil_cmdline E p1 hnil]
          exact ih p1 e off [] hnil hlen1 he
        · have hnext := next_eq_of_cmdline E p1 off c cs' hcm1
          obtain ⟨off', cs2, hrest, hlen', hnone, hsome⟩ :=
            runLoop_master (E.classify p1.separators) E.finalize p1.cmdline_len
              (c :: cs') off p1.state [] off false (Nat.le_refl _) hlen1
          rcases hr : runLoop (E.classify p1.separators) E.finalize p1.cmdline_len
              p1.state (charIndicesFrom off (c :: cs')) [] off false with ⟨res, stf, rest⟩
          rw [hr] at hnext hrest hnone hsome
          rw [hnext]
          rcases res with _ | ⟨⟨a, b⟩, tx⟩
          · have hcs2 : cs2 = [] := hnone rfl
            subst hcs2
            rw [utf8Len_nil] at hlen'
            exact ih { p1 with state := stf, cmdline := rest } e off' []
              (by exact hrest)
              (by show off' + utf8Len [] = p1.cmdline_len; rw [utf8Len_nil]; omega)
              (by omega)
          · obtain ⟨ha1, ha2, ha3⟩ := hsome a b tx rfl
            obtain ⟨hforall2, hchain2⟩ :=
              ih { p1 with state := stf, cmdline := rest } b off' cs2
                (by exact hrest) (by exact hlen') ha3
            constructor
            · show List.Forall (fun t => e ≤ t.1.1 ∧ t.1.1 ≤ t.1.2 ∧ t.1.2 ≤ p1.cmdline_len)
                (((a, b), tx) :: E.runPulls { p1 with state := stf, cmdline := rest } sch)
              rw [List.forall_cons]
              refine ⟨⟨?_, ?_, ?_⟩, ?_⟩
              · show e ≤ a; omega
              · show a ≤ b; exact ha2
              · show b ≤ p1.cmdline_len; omega
              refine List.Forall.imp (fun u hu => ?_) hforall2
              exact ⟨by omega, hu.2.1, hu.2.2⟩
            · show List.Chain' (fun t u => t.1.2 ≤ u.1.1)
                (((a, b), tx) :: E.runPulls { p1 with state := stf, cmdline := rest } sch)
              rw [List.chain'_cons']
              refine ⟨fun u hu => ?_, hchain2⟩
              have hx := (List.forall_iff_forall_mem.mp hforall2) u (List.mem_of_mem_head? hu)
              exact hx.1
      rcases sep? with _ | seps
      · have h1 := hmain p hcm hlen
        simpa only [Engine.runPulls] using h1
      · have h1 := hmain (p.set_separators seps) hcm hlen
        simpa only [Engine.runPulls] using h1

/-- Claim C5: for every input and every sequence of pulls, possibly
with arbitrary `set_separators` calls between them, every produced
range satisfies `start ≤ end ≤ input byte length`, and the ranges of
successively produced tokens are non-overlapping and monotonically
increasing (each token's end is at most the next token's start).
Proved for both engines. -/
theorem claimC5 :
    (∀ (s : List Char) (sch : List (Option (List Char))),
      List.Forall (fun t => t.1.1 ≤ t.1.2 ∧ t.1.2 ≤ utf8Len s)
        (unixEngine.runPulls (unixEngine.new s) sch)
      ∧ List.Chain' (fun t u => t.1.2 ≤ u.1.1)
          (unixEngine.runPulls (unixEngine.new s) sch))
    ∧ (∀ (s : List Char) (sch : List (Option (List Char))),
      List.Forall (fun t => t.1.1 ≤ t.1.2 ∧ t.1.2 ≤ utf8Len s)
        (windowsEngine.runPulls (windowsEngine.new s) sch)
      ∧ List.Chain' (fun t u => t.1.2 ≤ u.1.1)
          (windowsEngine.runPulls (windowsEngine.new s) sch)) := by
  constructor
  · intro s sch
    obtain ⟨h1, h2⟩ := runPulls_ranges unixEngine sch (unixEngine.new s) 0 0 s
      rfl (Nat.zero_add _) (Nat.le_refl _)
    exact ⟨List.Forall.imp (fun u hu => ⟨hu.2.1, hu.2.2⟩) h1, h2⟩
  · intro s sch
    obtain ⟨h1, h2⟩ := runPulls_ranges windowsEngine sch (windowsEngine.new s) 0 0 s
      rfl (Nat.zero_add _) (Nat.le_refl _)
    exact ⟨List.Forall.imp (fun u hu => ⟨hu.2.1, hu.2.2⟩) h1, h2⟩

/-! ## The scan of one token: phase-two characterization -/

theorem scanArg_cons_go {cls : σ → Char → StepRes σ} {st st' : σ} {c : Char}
    {app : List Char} {q : Bool} (arg : List Char) (wq : Bool) (cs : List Char)
    (h : cls st c = .go st' app q) :
    scanArg cls st arg wq (c :: cs) = scanArg cls st' (arg ++ app) (wq || q) cs := by
  simp [scanArg, h]

theorem noSepPath_nil (cls : σ → Char → StepRes σ) (st : σ) : NoSepPath cls st [] :=
  trivial

theorem noSepPath_cons_go {cls : σ → Char → StepRes σ} {st st' : σ} {c : Char}
    {app : List Char} {q : Bool} (cs : List Char) (h : cls st c = .go st' app q)
    (h2 : NoSepPath cls st' cs) : NoSepPath cls st (c :: cs) := by
  unfold NoSepPath
  rw [h]
  exact h2

/-- Phase two of a `next` call: once the scan is past the possible
leading separators (the invariant `st = N → arg ≠ [] ∨ wq` holds from
the first consumed character of a token onward), the loop scans one
separator-free run of characters, accumulating exactly `scanArg` of
that run, and then either exhausts the stream or yields at the first
character classified as a separator. -/
theorem runLoop_phase2 (cls : σ → Char → StepRes σ) (fin : σ → List Char) (len : Nat)
    (N : σ) (Hsep : ∀ st c, cls st c = .sep → st = N)
    (HI : ∀ st c st' app q, cls st c = .go st' app q → st' = N →
      (app ≠ [] ∨ q = true ∨ st = N)) :
    ∀ (cs : List Char) (off : Nat) (st : σ) (arg : List Char) (start : Nat) (wq : Bool),
      (st = N → arg ≠ [] ∨ wq = true) → off + utf8Len cs = len →
      ∃ cs1 cs2 stF argF wqF, cs = cs1 ++ cs2 ∧ NoSepPath cls st cs1 ∧
        scanArg cls st arg wq cs1 = (stF, argF, wqF) ∧
        ((cs2 = [] ∧
           runLoop cls fin len st (charIndicesFrom off cs) arg start wq
             = (if (argF ++ fin stF).length > 0 || wqF
                 then some ((start, len), argF ++ fin stF) else none, stF, []))
         ∨ (∃ cSep cs2', cs2 = cSep :: cs2' ∧ cls stF cSep = .sep
             ∧ (argF.length > 0 || wqF) = true
             ∧ runLoop cls fin len st (charIndicesFrom off cs) arg start wq
                 = (some ((start, off + utf8Len cs1), argF), stF,
                    charIndicesFrom (off + utf8Len cs1 + cSep.utf8Size) cs2'))) := by
  intro cs
  induction cs with
  | nil =>
      intro off st arg start wq hinv hlen
      refine ⟨[], [], st, arg, wq, rfl, trivial, rfl, Or.inl ⟨rfl, ?_⟩⟩
      exact runLoop_nil cls fin len st arg start wq
  | cons c cs' ih =>
      intro off st arg start wq hinv hlen
      rw [utf8Len_cons] at hlen
      rcases hc : cls st c with _ | ⟨st', app, q⟩
      · -- separator met at once: yield
        have hN := Hsep st c hc
        have harg := hinv hN
        have hcond : (decide (arg.length > 0) || wq) = true := by
          rcases harg with h | h
          · simp [List.length_pos, h]
          · simp [h]
        refine ⟨[], c :: cs', st, arg, wq, rfl, trivial, rfl,
          Or.inr ⟨c, cs', rfl, hc, hcond, ?_⟩⟩
        rw [charIndicesFrom, runLoop_cons_sep _ _ _ _ _ _ _ hc, if_pos hcond]
        rw [utf8Len_nil, Nat.add_zero]
      · -- ordinary transition: continue the scan
        have hinv' : st' = N → (arg ++ app) ≠ [] ∨ (wq || q) = true := by
          intro hN'
          rcases HI st c st' app q hc hN' with h | h | h
          · left
            intro hcontr
            rcases List.append_eq_nil.mp hcontr with ⟨_, h2⟩
            exact h h2
          · right; simp [h]
          · rcases hinv h with h2 | h2
            · left
              intro hcontr
              rcases List.append_eq_nil.mp hcontr with ⟨h1, _⟩
              exact h2 h1
            · right; simp [h2]
        obtain ⟨cs1, cs2, stF, argF, wqF, hsplit, hpath, hscan, hres⟩ :=
          ih (off + c.utf8Size) st' (arg ++ app) start (wq || q) hinv' (by omega)
        refine ⟨c :: cs1, cs2, stF, argF, wqF, by rw [List.cons_append, hsplit],
          noSepPath_cons_go _ hc hpath, ?_, ?_⟩
        · rw [scanArg_cons_go _ _ _ hc, hscan]
        · rcases hres with ⟨h2, heq⟩ | ⟨cSep, cs2', h2, hsep2, hcond2, heq⟩
          · refine Or.inl ⟨h2, ?_⟩
            rw [charIndicesFrom, runLoop_cons_go _ _ _ _ _ _ _ hc]
            exact heq
          · refine Or.inr ⟨cSep, cs2', h2, hsep2, hcond2, ?_⟩
            rw [charIndicesFrom, runLoop_cons_go _ _ _ _ _ _ _ hc, heq]
            rw [utf8Len_cons]
            have e1 : off + c.utf8Size + utf8Len cs1 = off + (c.utf8Size + utf8Len cs1) := by
              omega
            rw [e1]

/-! ## Engine-specific classifier facts -/

theorem unixClassify_Hsep (seps : List Char) :
    ∀ (st : Unix.ParsingState) (c : Char),
      unixClassify seps st c = .sep → st = .Normal := by
  intro st c h
  cases st with
  | Normal => rfl
  | Escaped => exact absurd h (by simp [unixClassify])
  | SingleQuoted => by_cases hc : c = squote <;> simp [unixClassify, hc] at h
  | DoubleQuoted =>
      by_cases hc : c = dquote <;> by_cases hb : c = bslash <;>
        simp [unixClassify, hc, hb, (by decide : ¬(bslash = dquote))] at h
  | DoubleQuotedEscaped =>
      by_cases hx : c = dquote ∨ c = bslash <;> simp [unixClassify, hx] at h

theorem winClassify_Hsep (seps : List Char) :
    ∀ (st : Windows.ParsingState) (c : Char),
      winClassify seps st c = .sep → st = .Normal := by
  intro st c h
  cases st with
  | Normal => rfl
  | Quoted =>
      by_cases hc : c = dquote <;> by_cases hb : c = bslash <;>
        simp [winClassify, hc, hb, (by decide : ¬(bslash = dquote))] at h
  | QuotedEscaped =>
      by_cases hx : c = dquote ∨ c = bslash <;> simp [winClassify, hx] at h

theorem unixClassify_HI (seps : List Char) :
    ∀ (st : Unix.ParsingState) (c : Char) (st' : Unix.ParsingState)
      (app : List Char) (q : Bool),
      unixClassify seps st c = .go st' app q → st' = .Normal →
      (app ≠ [] ∨ q = true ∨ st = .Normal) := by
  intro st c st' app q h hN
  cases st with
  | Normal => exact Or.inr (Or.inr rfl)
  | Escaped =>
      simp only [unixClassify, StepRes.go.injEq] at h
      obtain ⟨_, h2, _⟩ := h
      exact Or.inl (by rw [← h2]; simp)
  | SingleQuoted =>
      by_cases hc : c = squote
      · simp only [unixClassify, if_pos hc, StepRes.go.injEq] at h
        obtain ⟨_, _, h3⟩ := h
        exact Or.inr (Or.inl h3.symm)
      · simp only [unixClassify, if_neg hc, StepRes.go.injEq] at h
        obtain ⟨h1, _, _⟩ := h
        rw [← h1] at hN
        exact Unix.ParsingState.noConfusion hN
  | DoubleQuoted =>
      by_cases hc : c = dquote
      · simp only [unixClassify, if_pos hc, StepRes.go.injEq] at h
        obtain ⟨_, _, h3⟩ := h
        exact Or.inr (Or.inl h3.symm)
      · by_cases hb : c = bslash
        · simp only [unixClassify, if_neg hc, if_pos hb, StepRes.go.injEq] at h
          obtain ⟨h1, _, _⟩ := h
          rw [← h1] at hN
          exact Unix.ParsingState.noConfusion hN
        · simp only [unixClassify, if_neg hc, if_neg hb, StepRes.go.injEq] at h
          obtain ⟨h1, _, _⟩ := h
          rw [← h1] at hN
          exact Unix.ParsingState.noConfusion hN
  | DoubleQuotedEscaped =>
      by_cases hx : c = dquote ∨ c = bslash <;>
        simp only [unixClassify, if_pos, if_neg, hx, if_true, if_false,
          StepRes.go.injEq] at h <;>
      · obtain ⟨h1, _, _⟩ := h
        rw [← h1] at hN
        exact Unix.ParsingState.noConfusion hN

theorem winClassify_HI (seps : List Char) :
    ∀ (st : Windows.ParsingState) (c : Char) (st' : Windows.ParsingState)
      (app : List Char) (q : Bool),
      winClassify seps st c = .go st' app q → st' = .Normal →
      (app ≠ [] ∨ q = true ∨ st = .Normal) := by
  intro st c st' app q h hN
  cases st with
  | Normal => exact Or.inr (Or.inr rfl)
  | Quoted =>
      by_cases hc : c = dquote
      · simp only [winClassify, if_pos hc, StepRes.go.injEq] at h
        obtain ⟨_, _, h3⟩ := h
        exact Or.inr (Or.inl h3.symm)
      · by_cases hb : c = bslash
        · simp only [winClassify, if_neg hc, if_pos hb, StepRes.go.injEq] at h
          obtain ⟨h1, _, _⟩ := h
          rw [← h1] at hN
          exact Windows.ParsingState.noConfusion hN
        · simp only [winClassify, if_neg hc, if_neg hb, StepRes.go.injEq] at h
          obtain ⟨h1, _, _⟩ := h
          rw [← h1] at hN
          exact Windows.ParsingState.noConfusion hN
  | QuotedEscaped =>
      by_cases hx : c = dquote ∨ c = bslash <;>
        simp only [winClassify, if_pos, if_neg, hx, if_true, if_false,
          StepRes.go.injEq] at h <;>
      · obtain ⟨h1, _, _⟩ := h
        rw [← h1] at hN
        exact Windows.ParsingState.noConfusion hN

theorem unixClassify_sep_mem {seps : List Char} {st : Unix.ParsingState} {c : Char}
    (h : unixClassify seps st c = .sep) : c ∈ seps := by
  have hst := unixClassify_Hsep seps st c h
  subst hst
  by_cases h1 : c = bslash
  · simp [unixClassify, h1] at h
  · by_cases h2 : c = squote
    · simp [unixClassify, h1, h2, (by decide : ¬(squote = bslash))] at h
    · by_cases h3 : c = dquote
      · simp [unixClassify, h1, h2, h3, (by decide : ¬(dquote = bslash)),
          (by decide : ¬(dquote = squote))] at h
      · simp [unixClassify, h1, h2, h3] at h
        exact h

theorem winClassify_sep_mem {seps : List Char} {st : Windows.ParsingState} {c : Char}
    (h : winClassify seps st c = .sep) : c ∈ seps := by
  have hst := winClassify_Hsep seps st c h
  subst hst
  by_cases h3 : c = dquote
  · simp [winClassify, h3] at h
  · simp [winClassify, h3] at h
    exact h

theorem unixClassify_sep_of_mem {seps : List Char} {c : Char} (h1 : ¬(c = bslash))
    (h2 : ¬(c = squote)) (h3 : ¬(c = dquote)) (hm : c ∈ seps) :
    unixClassify seps .Normal c = .sep := by
  simpa [unixClassify, h1, h2, h3] using hm

theorem winClassify_sep_of_mem {seps : List Char} {c : Char}
    (h3 : ¬(c = dquote)) (hm : c ∈ seps) :
    winClassify seps .Normal c = .sep := by
  simpa [winClassify, h3] using hm

/-- Claim C4: a character of the active separator set met in the
`Normal` state ends the current token if and only if the accumulated
resolved text is non-empty or a quote was opened for this token;
otherwise it is skipped (so runs of consecutive separators between
tokens produce no empty tokens, while an empty-content quoted token
yields an empty-string argument).  Stated as the exact step equation
for both engines, plus: on inputs with no special characters no
produced token is empty, and the Unix input `'' ""` yields exactly two
empty tokens at ranges `0..2` and `3..5`. -/
theorem claimC4 :
    (∀ (seps : List Char) (c : Char), c ∈ seps → ¬(c = bslash) → ¬(c = squote) →
        ¬(c = dquote) →
      ∀ (len i : Nat) (rest : List (Nat × Char)) (arg : List Char) (start : Nat)
        (wq : Bool),
        runLoop (unixClassify seps) unixEngine.finalize len .Normal ((i, c) :: rest)
            arg start wq
          = if arg.length > 0 || wq then (some ((start, i), arg), .Normal, rest)
            else runLoop (unixClassify seps) unixEngine.finalize len .Normal rest
                arg (i + 1) wq)
    ∧ (∀ (seps : List Char) (c : Char), c ∈ seps → ¬(c = dquote) →
      ∀ (len i : Nat) (rest : List (Nat × Char)) (arg : List Char) (start : Nat)
        (wq : Bool),
        runLoop (winClassify seps) windowsEngine.finalize len .Normal ((i, c) :: rest)
            arg start wq
          = if arg.length > 0 || wq then (some ((start, i), arg), .Normal, rest)
            else runLoop (winClassify seps) windowsEngine.finalize len .Normal rest
                arg (i + 1) wq)
    ∧ (∀ (s : List Char),
        s.Forall (fun c => ¬(c = bslash) ∧ ¬(c = squote) ∧ ¬(c = dquote)) →
        List.Forall (fun t => t.2 ≠ []) (unixEngine.tokens (unixEngine.new s))
        ∧ List.Forall (fun t => t.2 ≠ []) (windowsEngine.tokens (windowsEngine.new s)))
    ∧ unixEngine.tokens (unixEngine.new [squote, squote, ' ', dquote, dquote])
        = [((0, 2), ([] : List Char)), ((3, 5), ([] : List Char))] := by
  refine ⟨?_, ?_, ?_, by decide⟩
  · intro seps c hm h1 h2 h3 len i rest arg start wq
    exact runLoop_cons_sep _ _ _ _ _ _ _ (unixClassify_sep_of_mem h1 h2 h3 hm)
  · intro seps c hm h3 len i rest arg start wq
    exact runLoop_cons_sep _ _ _ _ _ _ _ (winClassify_sep_of_mem h3 hm)
  · intro s h
    have hmem := List.forall_iff_forall_mem.mp h
    obtain ⟨hforall, _⟩ := wsSplit_props s s.length s [] (Nat.le_refl _) rfl
    have hne : List.Forall (fun t => t.2 ≠ []) (wsSplit s) :=
      List.Forall.imp (fun t ht => ht.1) hforall
    constructor
    · have he := tokens_plain unixEngine .Normal rfl (by decide) s.length s 0 (utf8Len s)
        (Nat.le_refl _) (Nat.zero_add _)
        (fun c hc hns => by
          obtain ⟨h1, h2, h3⟩ := hmem c hc
          exact unixClassify_plain c h1 h2 h3 hns)
      rw [show unixEngine.tokens (unixEngine.new s) = wsSplit s from he]
      exact hne
    · have he := tokens_plain windowsEngine .Normal rfl (by decide) s.length s 0 (utf8Len s)
        (Nat.le_refl _) (Nat.zero_add _)
        (fun c hc hns => by
          obtain ⟨_, _, h3⟩ := hmem c hc
          exact winClassify_plain c h3 hns)
      rw [show windowsEngine.tokens (windowsEngine.new s) = wsSplit s from he]
      exact hne

/-- Witness for C4: the step equation applied to the separator `':'`
with non-empty accumulated text, and the no-empty-token statement at
`"a  b"`. -/
theorem claimC4_witness :
    ((':' ∈ [':']) ∧ ¬(':' = bslash) ∧ ¬(':' = squote) ∧ ¬(':' = dquote))
    ∧ runLoop (unixClassify [':']) unixEngine.finalize 9 .Normal [(3, ':')] ['a'] 2 false
        = (if (['a'] : List Char).length > 0 || false
            then (some ((2, 3), ['a']), .Normal, [])
            else runLoop (unixClassify [':']) unixEngine.finalize 9 .Normal [] ['a'] 4 false)
    ∧ List.Forall (fun c => ¬(c = bslash) ∧ ¬(c = squote) ∧ ¬(c = dquote)) ("a  b".toList)
    ∧ List.Forall (fun t => t.2 ≠ [])
        (unixEngine.tokens (unixEngine.new ("a  b".toList))) :=
  ⟨⟨by decide, by decide, by decide, by decide⟩,
   claimC4.1 [':'] ':' (by decide) (by decide) (by decide) (by decide) 9 3 [] ['a'] 2 false,
   List.forall_iff_forall_mem.mpr (by decide),
   (claimC4.2.2.1 ("a  b".toList) (List.forall_iff_forall_mem.mpr (by decide))).1⟩

/-! ## Full characterization of one token-producing call -/

theorem unixClassify_HN (seps : List Char) :
    ∀ (c : Char) (st' : Unix.ParsingState) (app : List Char) (q : Bool),
      unixClassify seps .Normal c = .go st' app q → st' = .Normal →
      (app ≠ [] ∨ q = true) := by
  intro c st' app q h hN
  by_cases h1 : c = bslash
  · simp only [unixClassify, if_pos h1, StepRes.go.injEq] at h
    obtain ⟨hx, _, _⟩ := h
    rw [← hx] at hN
    exact Unix.ParsingState.noConfusion hN
  · by_cases h2 : c = squote
    · simp only [unixClassify, if_neg h1, if_pos h2, StepRes.go.injEq] at h
      obtain ⟨hx, _, _⟩ := h
      rw [← hx] at hN
      exact Unix.ParsingState.noConfusion hN
    · by_cases h3 : c = dquote
      · simp only [unixClassify, if_neg h1, if_neg h2, if_pos h3, StepRes.go.injEq] at h
        obtain ⟨hx, _, _⟩ := h
        rw [← hx] at hN
        exact Unix.ParsingState.noConfusion hN
      · by_cases h4 : seps.contains c = true
        · have h4' : c ∈ seps := by simpa using h4
          simp [unixClassify, h1, h2, h3, h4'] at h
        · simp only [unixClassify, if_neg h1, if_neg h2, if_neg h3, h4, if_neg,
            if_false, Bool.false_eq_true, StepRes.go.injEq] at h
          obtain ⟨_, hx, _⟩ := h
          exact Or.inl (by rw [← hx]; simp)

theorem winClassify_HN (seps : List Char) :
    ∀ (c : Char) (st' : Windows.ParsingState) (app : List Char) (q : Bool),
      winClassify seps .Normal c = .go st' app q → st' = .Normal →
      (app ≠ [] ∨ q = true) := by
  intro c st' app q h hN
  by_cases h3 : c = dquote
  · simp only [winClassify, if_pos h3, StepRes.go.injEq] at h
    obtain ⟨hx, _, _⟩ := h
    rw [← hx] at hN
    exact Windows.ParsingState.noConfusion hN
  · by_cases h4 : seps.contains c = true
    · have h4' : c ∈ seps := by simpa using h4
      simp [winClassify, h3, h4'] at h
    · simp only [winClassify, if_neg h3, h4, if_neg, if_false,
        Bool.false_eq_true, StepRes.go.injEq] at h
      obtain ⟨_, hx, _⟩ := h
      exact Or.inl (by rw [← hx]; simp)

theorem mem_charIndicesFrom_at :
    ∀ (pre : List Char) (off : Nat) (d : Char) (suf : List Char),
      (off + utf8Len pre, d) ∈ charIndicesFrom off (pre ++ d :: suf) := by
  intro pre
  induction pre with
  | nil =>
      intro off d suf
      rw [utf8Len_nil, Nat.add_zero, List.nil_append, charIndicesFrom]
      exact List.mem_cons_self ..
  | cons c pre ih =>
      intro off d suf
      rw [List.cons_append, charIndicesFrom]
      refine List.mem_cons_of_mem _ ?_
      have := ih (off + c.utf8Size) d suf
      have e : off + c.utf8Size + utf8Len pre = off + utf8Len (c :: pre) := by
        rw [utf8Len_cons]; omega
      rw [e] at this
      exact this

/-- One complete token-producing `next`-style call from the `Normal`
state: the loop skips a maximal run of leading separator characters,
enters the token at its first non-skipped character, scans one
separator-free run, and either exhausts the input or yields at a
separator, with the stated start/end offsets. -/
theorem runLoop_call_some (cls : σ → Char → StepRes σ) (fin : σ → List Char)
    (len : Nat) (N : σ)
    (Hsep : ∀ st c, cls st c = .sep → st = N)
    (HI : ∀ st c st' app q, cls st c = .go st' app q → st' = N →
      (app ≠ [] ∨ q = true ∨ st = N))
    (HN : ∀ c st' app q, cls N c = .go st' app q → st' = N → (app ≠ [] ∨ q = true))
    (HfinN : fin N = [])
    (H1 : ∀ c, cls N c = .sep → c.utf8Size = 1) :
    ∀ (cs : List Char) (off : Nat), off + utf8Len cs = len →
    ∀ {a b : Nat} {t : List Char},
      (runLoop cls fin len N (charIndicesFrom off cs) [] off false).1 = some ((a, b), t) →
      ∃ sp c0 st1 app q cs1 cs2 stF argF wqF,
        cs = sp ++ c0 :: (cs1 ++ cs2) ∧
        (∀ c ∈ sp, cls N c = .sep) ∧
        cls N c0 = .go st1 app q ∧
        NoSepPath cls st1 cs1 ∧
        scanArg cls st1 app q cs1 = (stF, argF, wqF) ∧
        a = off + sp.length ∧
        b = off + sp.length + c0.utf8Size + utf8Len cs1 ∧
        ((argF ++ fin stF) ≠ [] ∨ wqF = true) ∧
        ((cs2 = [] ∧ b = len ∧ t = argF ++ fin stF ∧
           runLoop cls fin len N (charIndicesFrom off cs) [] off false
             = (some ((a, b), t), stF, []))
         ∨ (∃ cSep cs2', cs2 = cSep :: cs2' ∧ cls stF cSep = .sep
             ∧ (argF ≠ [] ∨ wqF = true) ∧ t = argF ∧
             runLoop cls fin len N (charIndicesFrom off cs) [] off false
               = (some ((a, b), t), stF,
                  charIndicesFrom (b + cSep.utf8Size) cs2'))) := by
  intro cs off hlen a b t hres
  have hcs := List.takeWhile_append_dropWhile (fun c => stepIsSep (cls N c)) cs
  have hsp_sep : ∀ c ∈ cs.takeWhile (fun c => stepIsSep (cls N c)), cls N c = .sep := by
    intro c hc
    have hx := List.mem_takeWhile_imp hc
    cases h' : cls N c with
    | sep => rfl
    | go st' app q => rw [h'] at hx; simp [stepIsSep] at hx
  have hsp_all : ∀ c ∈ cs.takeWhile (fun c => stepIsSep (cls N c)),
      cls N c = .sep ∧ c.utf8Size = 1 :=
    fun c hc => ⟨hsp_sep c hc, H1 c (hsp_sep c hc)⟩
  have hsp1 : utf8Len (cs.takeWhile (fun c => stepIsSep (cls N c)))
      = (cs.takeWhile (fun c => stepIsSep (cls N c))).length :=
    utf8Len_all_one (fun c hc => (hsp_all c hc).2)
  have hskip := runLoop_skip cls fin len N (cs.takeWhile (fun c => stepIsSep (cls N c)))
    off (cs.dropWhile (fun c => stepIsSep (cls N c))) hsp_all
  rw [hcs] at hskip
  rcases hrest : cs.dropWhile (fun c => stepIsSep (cls N c)) with _ | ⟨c0, rest'⟩
  · exfalso
    rw [hrest] at hskip
    rw [hskip] at hres
    rw [show charIndicesFrom (off + (cs.takeWhile (fun c => stepIsSep (cls N c))).length)
        ([] : List Char) = [] from rfl] at hres
    rw [runLoop_exhaust_empty cls _ _ HfinN] at hres
    exact Option.noConfusion hres
  · rw [hrest] at hskip
    have hc0_nosep : stepIsSep (cls N c0) = false := by
      have hne : cs.dropWhile (fun c => stepIsSep (cls N c)) ≠ [] := by simp [hrest]
      have hh1 := List.head_dropWhile_not (fun c => stepIsSep (cls N c)) cs hne
      have hh2 : (cs.dropWhile (fun c => stepIsSep (cls N c))).head hne = c0 := by
        simp [hrest]
      rw [hh2] at hh1
      exact hh1
    obtain ⟨st1, app, q, hc0⟩ : ∃ st1 app q, cls N c0 = .go st1 app q := by
      cases h' : cls N c0 with
      | sep => rw [h'] at hc0_nosep; simp [stepIsSep] at hc0_nosep
      | go st1 app q => exact ⟨st1, app, q, rfl⟩
    have hlen_cs : utf8Len cs
        = (cs.takeWhile (fun c => stepIsSep (cls N c))).length
          + utf8Len (c0 :: rest') := by
      conv_lhs => rw [← hcs]
      rw [utf8Len_append, hsp1, hrest]
    have hinv : st1 = N → ([] ++ app) ≠ [] ∨ (false || q) = true := by
      intro hN'
      rcases HN c0 st1 app q hc0 hN' with h | h
      · left
        rw [List.nil_append]
        exact h
      · right; simp [h]
    rw [utf8Len_cons] at hlen_cs
    obtain ⟨cs1, cs2, stF, argF, wqF, hsplit, hpath, hscan, hres2⟩ :=
      runLoop_phase2 cls fin len N Hsep HI rest'
        (off + (cs.takeWhile (fun c => stepIsSep (cls N c))).length + c0.utf8Size)
        st1 ([] ++ app) (off + (cs.takeWhile (fun c => stepIsSep (cls N c))).length)
        (false || q) hinv (by omega)
    have hloopeq : runLoop cls fin len N (charIndicesFrom off cs) [] off false
        = runLoop cls fin len st1
            (charIndicesFrom
              (off + (cs.takeWhile (fun c => stepIsSep (cls N c))).length + c0.utf8Size)
              rest')
            ([] ++ app) (off + (cs.takeWhile (fun c => stepIsSep (cls N c))).length)
            (false || q) := by
      rw [hskip, charIndicesFrom, runLoop_cons_go _ _ _ _ _ _ _ hc0]
    rw [List.nil_append, Bool.false_or] at hscan
    have hscan' : scanArg cls st1 app q cs1 = (stF, argF, wqF) := hscan
    have hlen_rest : utf8Len rest' = utf8Len cs1 + utf8Len cs2 := by
      rw [hsplit, utf8Len_append]
    have hcs_eq : cs = cs.takeWhile (fun c => stepIsSep (cls N c)) ++ c0 :: (cs1 ++ cs2) := by
      conv_lhs => rw [← hcs]
      rw [hrest, hsplit]
    have hres' := hres
    rw [hloopeq] at hres'
    rcases hres2 with ⟨hcs2nil, heq⟩ | ⟨cSep, cs2', hcs2, hsepF, hcondF, heq⟩
    · rw [heq] at hres'
      have hres2' : (if (decide ((argF ++ fin stF).length > 0) || wqF) = true
          then some ((off + (cs.takeWhile (fun c => stepIsSep (cls N c))).length, len),
            argF ++ fin stF)
          else none) = some ((a, b), t) := hres'
      split at hres2'
      · rename_i hcond
        simp only [Option.some.injEq, Prod.mk.injEq] at hres2'
        obtain ⟨⟨ha, hb⟩, ht⟩ := hres2'
        have hcs2len : utf8Len cs2 = 0 := by rw [hcs2nil]; rfl
        have hcondP : (argF ++ fin stF) ≠ [] ∨ wqF = true := by
          rcases Bool.or_eq_true_iff.mp hcond with h | h
          · exact Or.inl (by
              have := of_decide_eq_true h
              intro hnil
              rw [hnil] at this
              simp at this)
          · exact Or.inr h
        refine ⟨cs.takeWhile (fun c => stepIsSep (cls N c)), c0, st1, app, q, cs1, cs2,
          stF, argF, wqF, hcs_eq, hsp_sep, hc0, hpath, hscan',
          ha.symm, by omega, hcondP, Or.inl ⟨hcs2nil, hb.symm, ht.symm, ?_⟩⟩
        rw [hloopeq, heq]
        rw [← ha, ← hb, ← ht]
        rw [if_pos hcond]
      · exact Option.noConfusion hres2'
    · rw [heq] at hres'
      have hres2' : some ((off + (cs.takeWhile (fun c => stepIsSep (cls N c))).length,
            off + (cs.takeWhile (fun c => stepIsSep (cls N c))).length + c0.utf8Size
              + utf8Len cs1), argF)
          = some ((a, b), t) := hres'
      simp only [Option.some.injEq, Prod.mk.injEq] at hres2'
      obtain ⟨⟨ha, hb⟩, ht⟩ := hres2'
      have hcondP0 : argF ≠ [] ∨ wqF = true := by
        rcases Bool.or_eq_true_iff.mp hcondF with h | h
        · exact Or.inl (by
            have := of_decide_eq_true h
            intro hnil
            rw [hnil] at this
            simp at this)
        · exact Or.inr h
      have hcondP : (argF ++ fin stF) ≠ [] ∨ wqF = true := by
        rcases hcondP0 with h | h
        · refine Or.inl ?_
          intro hnil
          rcases List.append_eq_nil.mp hnil with ⟨h1, _⟩
          exact h h1
        · exact Or.inr h
      refine ⟨cs.takeWhile (fun c => stepIsSep (cls N c)), c0, st1, app, q, cs1, cs2,
        stF, argF, wqF, hcs_eq, hsp_sep, hc0, hpath, hscan',
        ha.symm, hb.symm, hcondP, Or.inr ⟨cSep, cs2', hcs2, hsepF, hcondP0, ht.symm, ?_⟩⟩
      rw [hloopeq, heq, ← ha, ← hb, ← ht]

/-- Counterexample to claim C9 as stated.  With the two-byte separator
`'§'` (U+00A7, `Char.ofNat 167`) and input `"§a"`, the produced token
is `(1..3, "a")`: its start offset is 1 — one byte past the start of
the skipped separator, in the middle of its two-byte encoding — while
the byte offset of the first character that is not itself a separator
(`'a'`) is 2.  The code sets `start = i + 1` when skipping the
separator at byte offset `i`, which is not the next character boundary
for a multi-byte separator. -/
theorem claimC9_counterexample :
    unixEngine.tokens
        ((unixEngine.new [Char.ofNat 167, 'a']).set_separators [Char.ofNat 167])
      = [((1, 3), ['a'])]
    ∧ charIndices [Char.ofNat 167, 'a'] = [(0, Char.ofNat 167), (2, 'a')]
    ∧ (1 : Nat) ≠ 2 := by
  refine ⟨by decide, by decide, by decide⟩

/-- Claim C9, amended: restricted to separator sets whose characters
are single-byte and are not quoting or escaping characters of the
engine.  For any call of `next` from the `Normal` state on a
well-indexed stream, if a token `(a, b)` is produced then `a` is the
byte offset of the first character that is not itself a separator
since the last boundary (all preceding stream characters being
separators), and `b` is the input byte length or the byte position of
a triggering separator character (exclusive).  With a multi-byte
separator the code instead sets the start to one byte past the skipped
separator, as the counterexample shows.  Proved for both engines. -/
theorem claimC9_amended :
    (∀ (seps : List Char),
      seps.Forall (fun c => c.utf8Size = 1 ∧ ¬(c = bslash) ∧ ¬(c = squote)
        ∧ ¬(c = dquote)) →
      ∀ (off len : Nat) (cs : List Char) (a b : Nat) (t : List Char)
        (p' : Parser Unix.ParsingState),
        off + utf8Len cs = len →
        unixEngine.next ⟨.Normal, charIndicesFrom off cs, len, seps⟩
          = (some ((a, b), t), p') →
        (∃ sp c0 rest2, cs = sp ++ c0 :: rest2 ∧ sp.Forall (fun c => c ∈ seps)
          ∧ ¬(c0 ∈ seps) ∧ a = off + sp.length ∧ (a, c0) ∈ charIndicesFrom off cs)
        ∧ (b = len ∨ ∃ cSep, cSep ∈ seps ∧ (b, cSep) ∈ charIndicesFrom off cs))
    ∧ (∀ (seps : List Char),
      seps.Forall (fun c => c.utf8Size = 1 ∧ ¬(c = dquote)) →
      ∀ (off len : Nat) (cs : List Char) (a b : Nat) (t : List Char)
        (p' : Parser Windows.ParsingState),
        off + utf8Len cs = len →
        windowsEngine.next ⟨.Normal, charIndicesFrom off cs, len, seps⟩
          = (some ((a, b), t), p') →
        (∃ sp c0 rest2, cs = sp ++ c0 :: rest2 ∧ sp.Forall (fun c => c ∈ seps)
          ∧ ¬(c0 ∈ seps) ∧ a = off + sp.length ∧ (a, c0) ∈ charIndicesFrom off cs)
        ∧ (b = len ∨ ∃ cSep, cSep ∈ seps ∧ (b, cSep) ∈ charIndicesFrom off cs)) := by
  constructor
  · intro seps hseps off len cs a b t p' hlen hnext
    have hsepsmem := List.forall_iff_forall_mem.mp hseps
    rcases cs with _ | ⟨chd, ctl⟩
    · have hcontr : (none : Option ((Nat × Nat) × List Char)) = some ((a, b), t) :=
        congrArg Prod.fst hnext
      exact Option.noConfusion hcontr
    · rw [next_cons_eq] at hnext
      have hres : (runLoop (unixClassify seps) unixEngine.finalize len .Normal
          (charIndicesFrom off (chd :: ctl)) [] off false).1 = some ((a, b), t) :=
        congrArg Prod.fst hnext
      obtain ⟨sp, c0, st1, app, q, cs1, cs2, stF, argF, wqF, hcseq, hsp, hc0, hpath,
        hscan, ha, hb, hcond, hdisj⟩ :=
        runLoop_call_some (unixClassify seps) unixEngine.finalize len .Normal
          (unixClassify_Hsep seps) (unixClassify_HI seps) (unixClassify_HN seps) rfl
          (fun c hc => (hsepsmem c (unixClassify_sep_mem hc)).1)
          (chd :: ctl) off hlen hres
      have hsp1 : utf8Len sp = sp.length :=
        utf8Len_all_one (fun c hc => (hsepsmem c (unixClassify_sep_mem (hsp c hc))).1)
      constructor
      · refine ⟨sp, c0, cs1 ++ cs2, hcseq, ?_, ?_, ha, ?_⟩
        · exact List.forall_iff_forall_mem.mpr
            (fun c hc => unixClassify_sep_mem (hsp c hc))
        · intro hc0mem
          have hx := unixClassify_sep_of_mem (hsepsmem c0 hc0mem).2.1
            (hsepsmem c0 hc0mem).2.2.1 (hsepsmem c0 hc0mem).2.2.2 hc0mem
          rw [hc0] at hx
          exact StepRes.noConfusion hx
        · have hmem := mem_charIndicesFrom_at sp off c0 (cs1 ++ cs2)
          rw [hsp1] at hmem
          rw [hcseq, ha]
          exact hmem
      · rcases hdisj with ⟨_, hblen, _, _⟩ | ⟨cSep, cs2', hcs2, hsepF, _, _, _⟩
        · exact Or.inl hblen
        · right
          refine ⟨cSep, unixClassify_sep_mem hsepF, ?_⟩
          have hmem := mem_charIndicesFrom_at (sp ++ c0 :: cs1) off cSep cs2'
          have hstream : (sp ++ c0 :: cs1) ++ cSep :: cs2' = chd :: ctl := by
            rw [hcseq, hcs2]
            simp [List.append_assoc, List.cons_append]
          have hoff : off + utf8Len (sp ++ c0 :: cs1) = b := by
            rw [utf8Len_append, utf8Len_cons, hsp1]
            omega
          rw [hstream, hoff] at hmem
          exact hmem
  · intro seps hseps off len cs a b t p' hlen hnext
    have hsepsmem := List.forall_iff_forall_mem.mp hseps
    rcases cs with _ | ⟨chd, ctl⟩
    · have hcontr : (none : Option ((Nat × Nat) × List Char)) = some ((a, b), t) :=
        congrArg Prod.fst hnext
      exact Option.noConfusion hcontr
    · rw [next_cons_eq] at hnext
      have hres : (runLoop (winClassify seps) windowsEngine.finalize len .Normal
          (charIndicesFrom off (chd :: ctl)) [] off false).1 = some ((a, b), t) :=
        congrArg Prod.fst hnext
      obtain ⟨sp, c0, st1, app, q, cs1, cs2, stF, argF, wqF, hcseq, hsp, hc0, hpath,
        hscan, ha, hb, hcond, hdisj⟩ :=
        runLoop_call_some (winClassify seps) windowsEngine.finalize len .Normal
          (winClassify_Hsep seps) (winClassify_HI seps) (winClassify_HN seps) rfl
          (fun c hc => (hsepsmem c (winClassify_sep_mem hc)).1)
          (chd :: ctl) off hlen hres
      have hsp1 : utf8Len sp = sp.length :=
        utf8Len_all_one (fun c hc => (hsepsmem c (winClassify_sep_mem (hsp c hc))).1)
      constructor
      · refine ⟨sp, c0, cs1 ++ cs2, hcseq, ?_, ?_, ha, ?_⟩
        · exact List.forall_iff_forall_mem.mpr
            (fun c hc => winClassify_sep_mem (hsp c hc))
        · intro hc0mem
          have hx := winClassify_sep_of_mem (hsepsmem c0 hc0mem).2 hc0mem
          rw [hc0] at hx
          exact StepRes.noConfusion hx
        · have hmem := mem_charIndicesFrom_at sp off c0 (cs1 ++ cs2)
          rw [hsp1] at hmem
          rw [hcseq, ha]
          exact hmem
      · rcases hdisj with ⟨_, hblen, _, _⟩ | ⟨cSep, cs2', hcs2, hsepF, _, _, _⟩
        · exact Or.inl hblen
        · right
          refine ⟨cSep, winClassify_sep_mem hsepF, ?_⟩
          have hmem := mem_charIndicesFrom_at (sp ++ c0 :: cs1) off cSep cs2'
          have hstream : (sp ++ c0 :: cs1) ++ cSep :: cs2' = chd :: ctl := by
            rw [hcseq, hcs2]
            simp [List.append_assoc, List.cons_append]
          have hoff : off + utf8Len (sp ++ c0 :: cs1) = b := by
            rw [utf8Len_append, utf8Len_cons, hsp1]
            omega
          rw [hstream, hoff] at hmem
          exact hmem

/-- Witness for the amended C9: separator `':'` on input `":ab:c"`,
whose first pull produces the token `(1..3, "ab")`. -/
theorem claimC9_amended_witness :
    (([':'] : List Char).Forall (fun c => c.utf8Size = 1 ∧ ¬(c = bslash)
      ∧ ¬(c = squote) ∧ ¬(c = dquote)))
    ∧ (0 + utf8Len (":ab:c".toList) = 5)
    ∧ (unixEngine.next ⟨.Normal, charIndicesFrom 0 (":ab:c".toList), 5, [':']⟩
        = (some ((1, 3), ['a', 'b']),
           ⟨.Normal, [(4, 'c')], 5, [':']⟩))
    ∧ ((∃ sp c0 rest2, (":ab:c".toList) = sp ++ c0 :: rest2
          ∧ sp.Forall (fun c => c ∈ ([':'] : List Char))
          ∧ ¬(c0 ∈ ([':'] : List Char)) ∧ 1 = 0 + sp.length
          ∧ ((1 : Nat), c0) ∈ charIndicesFrom 0 (":ab:c".toList))
        ∧ ((3 : Nat) = 5 ∨ ∃ cSep, cSep ∈ ([':'] : List Char)
            ∧ ((3 : Nat), cSep) ∈ charIndicesFrom 0 (":ab:c".toList))) :=
  ⟨List.forall_iff_forall_mem.mpr (by decide), by decide, by decide,
   claimC9_amended.1 [':'] (List.forall_iff_forall_mem.mpr (by decide)) 0 5
     (":ab:c".toList) 1 3 ['a', 'b'] ⟨.Normal, [(4, 'c')], 5, [':']⟩
     (by decide) (by decide)⟩

/-! ## Re-parsing a token's span with no separators -/

theorem unixClassify_empty_nosep : ∀ (st : Unix.ParsingState) (c : Char),
    ¬(unixClassify [] st c = .sep) :=
  fun _ c h => absurd (unixClassify_sep_mem h) (List.not_mem_nil c)

theorem unixClassify_agree (seps : List Char) :
    ∀ (st : Unix.ParsingState) (c : Char), ¬(unixClassify seps st c = .sep) →
      unixClassify [] st c = unixClassify seps st c := by
  intro st c hne
  cases st with
  | Normal =>
      by_cases h1 : c = bslash
      · simp [unixClassify, h1]
      · by_cases h2 : c = squote
        · simp [unixClassify, h1, h2]
        · by_cases h3 : c = dquote
          · simp [unixClassify, h1, h2, h3]
          · by_cases h4 : seps.contains c = true
            · exact absurd (unixClassify_sep_of_mem h1 h2 h3 (by simpa using h4)) hne
            · have h4' : ¬(c ∈ seps) := fun hm => h4 (by simpa using hm)
              simp [unixClassify, h1, h2, h3, h4']
  | Escaped => rfl
  | SingleQuoted => rfl
  | DoubleQuoted => rfl
  | DoubleQuotedEscaped => rfl

/-- When no character is ever classified as a separator, the loop just
folds the transitions over the whole stream and finalizes. -/
theorem runLoop_nosep (cls : σ → Char → StepRes σ) (fin : σ → List Char) (len : Nat)
    (Hn : ∀ st c, ¬(cls st c = .sep)) :
    ∀ (cs : List Char) (off : Nat) (st : σ) (arg : List Char) (start : Nat) (wq : Bool),
      runLoop cls fin len st (charIndicesFrom off cs) arg start wq
        = ((if ((scanArg cls st arg wq cs).2.1 ++ fin (scanArg cls st arg wq cs).1).length > 0
              || (scanArg cls st arg wq cs).2.2
            then some ((start, len),
              (scanArg cls st arg wq cs).2.1 ++ fin (scanArg cls st arg wq cs).1)
            else none),
           (scanArg cls st arg wq cs).1, []) := by
  intro cs
  induction cs with
  | nil => intro off st arg start wq; rfl
  | cons c cs ih =>
      intro off st arg start wq
      cases h' : cls st c with
      | sep => exact absurd h' (Hn st c)
      | go st' app q =>
          rw [charIndicesFrom, runLoop_cons_go _ _ _ _ _ _ _ h',
            scanArg_cons_go _ _ _ h']
          exact ih (off + c.utf8Size) st' (arg ++ app) start (wq || q)

theorem scanArg_agree (cls cls0 : σ → Char → StepRes σ)
    (H : ∀ st c, ¬(cls st c = .sep) → cls0 st c = cls st c) :
    ∀ (cs : List Char) (st : σ) (arg : List Char) (wq : Bool),
      NoSepPath cls st cs → scanArg cls0 st arg wq cs = scanArg cls st arg wq cs := by
  intro cs
  induction cs with
  | nil => intro st arg wq _; rfl
  | cons c cs ih =>
      intro st arg wq hpath
      cases h' : cls st c with
      | sep =>
          refine False.elim ?_
          unfold NoSepPath at hpath
          rw [h'] at hpath
          exact hpath
      | go st' app q =>
          have hpath' : NoSepPath cls st' cs := by
            unfold NoSepPath at hpath
            rw [h'] at hpath
            exact hpath
          have h0 : cls0 st c = .go st' app q := by
            rw [H st c (by rw [h']; intro hx; exact StepRes.noConfusion hx), h']
          rw [scanArg_cons_go _ _ _ h', scanArg_cons_go _ _ _ h0]
          exact ih st' (arg ++ app) (wq || q) hpath'

theorem unixEngine_classify : unixEngine.classify = unixClassify := rfl

theorem unixEngine_finalize_eq (st : Unix.ParsingState) :
    unixEngine.finalize st = [] := rfl

/-- The value of `parse_single` on a non-empty string, in terms of the
pure scan with the empty separator set. -/
theorem parse_single_cons (c0 : Char) (cs1 : List Char) :
    parse_single (c0 :: cs1)
      = (if (decide
              ((scanArg (unixClassify []) .Normal [] false (c0 :: cs1)).2.1.length > 0)
            || (scanArg (unixClassify []) .Normal [] false (c0 :: cs1)).2.2) = true
          then (scanArg (unixClassify []) .Normal [] false (c0 :: cs1)).2.1
          else []) := by
  unfold parse_single
  rw [show (unixEngine.new (c0 :: cs1)).set_separators []
      = ⟨.Normal, charIndicesFrom 0 (c0 :: cs1), utf8Len (c0 :: cs1), []⟩ from rfl]
  rw [next_cons_eq, unixEngine_classify]
  have hrun := runLoop_nosep (unixClassify []) unixEngine.finalize
    (utf8Len (c0 :: cs1)) unixClassify_empty_nosep (c0 :: cs1) 0 .Normal [] 0 false
  have happ : (scanArg (unixClassify []) .Normal [] false (c0 :: cs1)).2.1
      ++ unixEngine.finalize (scanArg (unixClassify []) .Normal [] false (c0 :: cs1)).1
      = (scanArg (unixClassify []) .Normal [] false (c0 :: cs1)).2.1 :=
    List.append_nil _
  rw [happ] at hrun
  rw [hrun]
  by_cases hcond : (decide
        ((scanArg (unixClassify []) .Normal [] false (c0 :: cs1)).2.1.length > 0)
      || (scanArg (unixClassify []) .Normal [] false (c0 :: cs1)).2.2) = true
  · rw [if_pos hcond, if_pos hcond]
  · rw [if_neg hcond, if_neg hcond]

/-- The emptied-separator parser resolves a non-empty span as exactly
one token covering the whole span. -/
theorem span_tokens_single (c0 : Char) (cs1 : List Char)
    (hcond : (decide
        ((scanArg (unixClassify []) .Normal [] false (c0 :: cs1)).2.1.length > 0)
      || (scanArg (unixClassify []) .Normal [] false (c0 :: cs1)).2.2) = true) :
    unixEngine.tokens ((unixEngine.new (c0 :: cs1)).set_separators [])
      = [((0, utf8Len (c0 :: cs1)),
          (scanArg (unixClassify []) .Normal [] false (c0 :: cs1)).2.1)] := by
  rw [show (unixEngine.new (c0 :: cs1)).set_separators []
      = ⟨.Normal, charIndicesFrom 0 (c0 :: cs1), utf8Len (c0 :: cs1), []⟩ from rfl]
  rw [tokens_unfold, next_cons_eq, unixEngine_classify]
  have hrun := runLoop_nosep (unixClassify []) unixEngine.finalize
    (utf8Len (c0 :: cs1)) unixClassify_empty_nosep (c0 :: cs1) 0 .Normal [] 0 false
  have happ : (scanArg (unixClassify []) .Normal [] false (c0 :: cs1)).2.1
      ++ unixEngine.finalize (scanArg (unixClassify []) .Normal [] false (c0 :: cs1)).1
      = (scanArg (unixClassify []) .Normal [] false (c0 :: cs1)).2.1 :=
    List.append_nil _
  rw [happ] at hrun
  rw [hrun, if_pos hcond]
  rfl

/-- Round trip: every token produced by the default Unix parser on `s`
resolves, when its byte-slice span is fed to the emptied-separator
parser, to exactly one token with the same resolved text. -/
theorem tokens_roundtrip (s : List Char) :
    ∀ (n : Nat) (cs s1 : List Char), cs.length ≤ n → s = s1 ++ cs →
      List.Forall (fun t => parse_single (byteSlice s t.1.1 t.1.2) = t.2
          ∧ unixEngine.tokens
              ((unixEngine.new (byteSlice s t.1.1 t.1.2)).set_separators [])
            = [((0, utf8Len (byteSlice s t.1.1 t.1.2)), t.2)])
        (unixEngine.tokens
          ⟨.Normal, charIndicesFrom (utf8Len s1) cs, utf8Len s, [' ']⟩) := by
  intro n
  induction n with
  | zero =>
      intro cs s1 hn _
      have hnil : cs = [] := List.eq_nil_of_length_eq_zero (Nat.le_zero.mp hn)
      subst hnil
      exact trivial
  | succ n ih =>
      intro cs s1 hn hs
      rcases hcall : (runLoop (unixClassify [' ']) unixEngine.finalize (utf8Len s)
          .Normal (charIndicesFrom (utf8Len s1) cs) [] (utf8Len s1) false).1
        with _ | ⟨⟨a, b⟩, t⟩
      · rcases cs with _ | ⟨chd, ctl⟩
        · exact trivial
        · rw [tokens_unfold, next_cons_eq, unixEngine_classify, hcall]
          exact trivial
      · rcases cs with _ | ⟨chd, ctl⟩
        · rw [show charIndicesFrom (utf8Len s1) ([] : List Char) = [] from rfl,
            show runLoop (unixClassify [' ']) unixEngine.finalize (utf8Len s) .Normal
              [] [] (utf8Len s1) false = (none, .Normal, []) from
                runLoop_exhaust_empty _ _ _ rfl] at hcall
          exact Option.noConfusion hcall
        · have hlen : utf8Len s1 + utf8Len (chd :: ctl) = utf8Len s := by
            rw [hs, utf8Len_append]
          obtain ⟨sp, c0, st1, app, q, cs1, cs2, stF, argF, wqF, hcseq, hsp, hc0, hpath,
            hscan, ha, hb, hcond, hdisj⟩ :=
            runLoop_call_some (unixClassify [' ']) unixEngine.finalize (utf8Len s)
              .Normal (unixClassify_Hsep [' ']) (unixClassify_HI [' '])
              (unixClassify_HN [' ']) rfl
              (fun c hc => by
                have hc' : c = ' ' := by simpa using unixClassify_sep_mem hc
                rw [hc']
                exact utf8Size_one_space)
              (chd :: ctl) (utf8Len s1) hlen hcall
          have hsp_space : ∀ c ∈ sp, c = ' ' := fun c hc => by
            simpa using unixClassify_sep_mem (hsp c hc)
          have hsp1 : utf8Len sp = sp.length :=
            utf8Len_all_one (fun c hc => by
              rw [hsp_space c hc]; exact utf8Size_one_space)
          have hscan_full : scanArg (unixClassify [' ']) .Normal [] false (c0 :: cs1)
              = (stF, argF, wqF) := by
            rw [scanArg_cons_go [] false cs1 hc0, List.nil_append, Bool.false_or]
            exact hscan
          have hpath_full : NoSepPath (unixClassify [' ']) .Normal (c0 :: cs1) :=
            noSepPath_cons_go cs1 hc0 hpath
          have hscan0 : scanArg (unixClassify []) .Normal [] false (c0 :: cs1)
              = (stF, argF, wqF) := by
            rw [scanArg_agree (unixClassify [' ']) (unixClassify [])
              (unixClassify_agree [' ']) (c0 :: cs1) .Normal [] false hpath_full]
            exact hscan_full
          have haF : (scanArg (unixClassify []) .Normal [] false (c0 :: cs1)).2.1
              = argF := by rw [hscan0]
          have hslice : byteSlice s a b = c0 :: cs1 := by
            have hsdec : s = (s1 ++ sp) ++ ((c0 :: cs1) ++ cs2) := by
              rw [hs, hcseq]
              simp [List.append_assoc, List.cons_append]
            have hu : utf8Len (s1 ++ sp) = a := by
              rw [utf8Len_append, hsp1, ha]
            have hv : utf8Len (s1 ++ sp) + utf8Len (c0 :: cs1) = b := by
              rw [utf8Len_append, hsp1, utf8Len_cons, hb]
              omega
            rw [hsdec, ← hu, ← hv]
            exact byteSlice_decomp (s1 ++ sp) (c0 :: cs1) cs2
          have hcond0 : (decide
              ((scanArg (unixClassify []) .Normal [] false (c0 :: cs1)).2.1.length > 0)
            || (scanArg (unixClassify []) .Normal [] false (c0 :: cs1)).2.2) = true := by
            rw [hscan0]
            show (decide (argF.length > 0) || wqF) = true
            rcases hcond with h | h
            · have hne : argF ≠ [] := fun hnil =>
                h (by simp [hnil, unixEngine_finalize_eq])
              simp [List.length_pos, hne]
            · simp [h]
          rcases hdisj with ⟨hcs2nil, hblen, ht, heq⟩
            | ⟨cSep, cs2', hcs2, hsepF, hcond2, ht, heq⟩
          · -- token runs to end of input: single token
            have htok : unixEngine.tokens
                ⟨.Normal, charIndicesFrom (utf8Len s1) (chd :: ctl), utf8Len s, [' ']⟩
                = [((a, b), t)] := by
              rw [tokens_unfold, next_cons_eq, unixEngine_classify, heq]
              rfl
            rw [htok]
            show (parse_single (byteSlice s a b) = t
                ∧ unixEngine.tokens
                    ((unixEngine.new (byteSlice s a b)).set_separators [])
                  = [((0, utf8Len (byteSlice s a b)), t)])
            constructor
            · rw [hslice, parse_single_cons c0 cs1, if_pos hcond0, haF, ht,
                unixEngine_finalize_eq, List.append_nil]
            · rw [hslice, span_tokens_single c0 cs1 hcond0, haF, ht,
                unixEngine_finalize_eq, List.append_nil]
          · -- token cut by a space; recurse on the rest
            have hcSep : cSep = ' ' := by simpa using unixClassify_sep_mem hsepF
            subst hcSep
            have hstF : stF = .Normal := unixClassify_Hsep [' '] stF ' ' hsepF
            subst hstF
            rw [utf8Size_one_space] at heq
            have htok : unixEngine.tokens
                ⟨.Normal, charIndicesFrom (utf8Len s1) (chd :: ctl), utf8Len s, [' ']⟩
                = ((a, b), t)
                  :: unixEngine.tokens
                      ⟨.Normal, charIndicesFrom (b + 1) cs2', utf8Len s, [' ']⟩ := by
              rw [tokens_unfold, next_cons_eq, unixEngine_classify, heq]
            have hs' : s = (s1 ++ (sp ++ ((c0 :: cs1) ++ [' ']))) ++ cs2' := by
              rw [hs, hcseq, hcs2]
              simp [List.append_assoc, List.cons_append]
            have hlen' : utf8Len (s1 ++ (sp ++ ((c0 :: cs1) ++ [' ']))) = b + 1 := by
              rw [utf8Len_append, utf8Len_append, utf8Len_append, hsp1, utf8Len_cons]
              have h1 : utf8Len [' '] = 1 := by decide
              rw [h1, hb]
              omega
            have hlen_cs2 : cs2'.length ≤ n := by
              have h2 : (chd :: ctl).length
                  = sp.length + (1 + (cs1.length + (1 + cs2'.length))) := by
                rw [hcseq, hcs2]
                simp [List.length_append]
                omega
              rw [List.length_cons] at hn h2
              omega
            have hih := ih cs2' (s1 ++ (sp ++ ((c0 :: cs1) ++ [' ']))) hlen_cs2 hs'
            rw [hlen'] at hih
            rw [htok, List.forall_cons]
            refine ⟨?_, hih⟩
            show (parse_single (byteSlice s a b) = t
                ∧ unixEngine.tokens
                    ((unixEngine.new (byteSlice s a b)).set_separators [])
                  = [((0, utf8Len (byteSlice s a b)), t)])
            constructor
            · rw [hslice, parse_single_cons c0 cs1, if_pos hcond0, haF, ht]
            · rw [hslice, span_tokens_single c0 cs1 hcond0, haF, ht]

/-- Claim C6: round-trip — for every input and every token
`(range, text)` produced by the Unix parser, running the same engine
on the exact substring `input[start..end)` with the separator set
emptied (which is what `parse_single` does) yields exactly one token
whose resolved text equals `text`. -/
theorem claimC6 (s : List Char) :
    List.Forall (fun t => parse_single (byteSlice s t.1.1 t.1.2) = t.2
        ∧ unixEngine.tokens
            ((unixEngine.new (byteSlice s t.1.1 t.1.2)).set_separators [])
          = [((0, utf8Len (byteSlice s t.1.1 t.1.2)), t.2)])
      (unixEngine.tokens (unixEngine.new s)) :=
  tokens_roundtrip s s.length s [] (Nat.le_refl _) rfl
